import Mathlib

/-!
# SimpleLRU (src/storage/SimpleLRU.cpp)

A verification development for the byte-budgeted LRU cache `Afina::Backend::SimpleLRU`.

The embedding is at the level of the pointer structure of the source: the nodes of the
recency chain live in an arena, a pointer is an index into the arena, `nullptr` is
`none`, and every statement of the source that reads or writes a node through a pointer is a
read or write of the arena slot.  A dereference of a null pointer or of a pointer outside
the arena has no defined result, so every function that dereferences returns an `Option`,
and `none` stands for "no defined result".

A `std::string` is a `String` whose characters stand for its bytes, so `size()` is `length`.

Sizes (`std::size_t`) are natural numbers.  The sum `key.size() + value.size()` of the sizes
of two strings that exist side by side in one address space is below `2 ^ 64` and is taken
exactly.  All arithmetic on the counter `_cur_size` is machine arithmetic modulo `2 ^ 64`
(`size_add`, `size_sub`), so that an overflow or an underflow shows up as the value the
machine computes.

Ownership.  `_lru_head` and the `next` field of a node are `std::unique_ptr`s: each owns the
node it points to, and a move assignment to one of them destroys the node it owned before
the assignment.  The arena keeps the slot of a node, so destruction is not a change of the
arena; it is modelled where it matters, in `DeleteNode`: lines 26 and 28 assign to the
pointer that owns `tmp`, and line 31 reads `tmp` afterwards.  A read of a destroyed node has
no defined result, like a dereference of a null pointer.  In `MoveNodeToTail` and
`InsertNewNode` the owning pointers assigned to are null or moved-from whenever the chain is
well linked, so nothing is destroyed there.  New nodes get the next unused slot of the arena.

The file has three parts: the embedding of the source and the views used to state
properties; lemmas about the chain, one function of the source at a time; the properties
of the specification, numbered as in the list of claims.
-/

namespace Afina.Backend

/-- A pointer to an `lru_node`: the index of its slot in the arena. -/
abbrev Ptr := Nat

/-- Width of `std::size_t`. -/
def SIZE_BITS : Nat := 64

/-- Unsigned machine subtraction on `std::size_t`: `a - b` modulo `2 ^ 64`. -/
def size_sub (a b : Nat) : Nat := (a + 2 ^ SIZE_BITS - b) % 2 ^ SIZE_BITS

/-- Unsigned machine addition on `std::size_t`: `a + b` modulo `2 ^ 64`. -/
def size_add (a b : Nat) : Nat := (a + b) % 2 ^ SIZE_BITS

/-- Modelled from the spec: the node type `lru_node`, declared in the header `SimpleLRU.h`
which is not among the sources.  The spec's Entry has `key`, `value`, `prev` and `next`; the
aggregate initialisers in `InsertNewNode` (`lru_node{ key, value, _lru_tail, nullptr }`) fix
the order of the fields, `prev` is a plain back pointer and `next` the owning pointer. -/
structure lru_node where
  key : String
  value : String
  prev : Option Ptr
  next : Option Ptr
  deriving DecidableEq

/-- Modelled from the spec: the key index `_lru_index` (a `std::map` from key to node reference,
declared in `SimpleLRU.h`, not among the sources), as an association list with unique keys. -/
abbrev Index := List (String × Ptr)

/-- The call `_lru_index.find(key)`: the node registered under `key`, `none` for `end()`. -/
def index_find (m : Index) (key : String) : Option Ptr := List.lookup key m

/-- The call `_lru_index.erase(key)`. -/
def index_erase (m : Index) (key : String) : Index := m.filter (fun e => e.1 != key)

/-- The call `_lru_index.insert({key, node})`: a map insertion, which leaves an already
registered key as it is. -/
def index_insert (m : Index) (key : String) (p : Ptr) : Index :=
  match index_find m key with
  | some _ => m
  | none => (key, p) :: m

/-- Modelled from the spec: the members of `SimpleLRU` (declared in `SimpleLRU.h`, not among
the sources): capacity, running size, index, head and tail of the chain.  The field `arena`
is the memory holding the nodes. -/
structure SimpleLRU where
  _max_size : Nat
  _cur_size : Nat
  _lru_index : Index
  _lru_head : Option Ptr
  _lru_tail : Option Ptr
  arena : List lru_node
  deriving DecidableEq

/-- Modelled from the spec: the constructor (in `SimpleLRU.h`, not among the sources): a
container with a fixed capacity and no entries. -/
def SimpleLRU.empty (max_size : Nat) : SimpleLRU :=
  { _max_size := max_size, _cur_size := 0, _lru_index := [], _lru_head := none,
    _lru_tail := none, arena := [] }

/-- `SimpleLRU::DeleteNode(lru_node &tmp)`, lines 15-32; `p` is the address of `tmp`.

The assignment in line 26 (`prev->next = std::move(next)`) or line 28
(`_lru_head = std::move(next)`) is a move assignment to a `std::unique_ptr`: it destroys the
node that pointer owned, here called `owned`.  Line 31 reads `tmp.key.size()` and
`tmp.value.size()` after that.  When `owned` is `tmp` itself, which is the case whenever `tmp`
is a node of a well-linked chain (the pointer that leads to `tmp` is the one that owns it),
line 31 reads a destroyed node and the call has no defined result.  In the remaining case
(the pointer owned nothing or another node, which does not happen in a well-linked chain)
line 31 subtracts the sizes of `tmp`; what becomes of the other node is not recorded. -/
def DeleteNode (s : SimpleLRU) (p : Ptr) : Option SimpleLRU :=
  match s.arena[p]? with
  | none => none
  | some tmp =>
    -- auto next = std::move(tmp.next);  auto prev = tmp.prev;
    let next := tmp.next
    let a1 := s.arena.set p { tmp with next := none }
    let prev := tmp.prev
    -- if(next) next->prev = prev; else _lru_tail = prev;
    let r1 : Option (List lru_node × Option Ptr) :=
      match next with
      | some n =>
        match a1[n]? with
        | none => none
        | some nn => some (a1.set n { nn with prev := prev }, s._lru_tail)
      | none => some (a1, prev)
    match r1 with
    | none => none
    | some (a2, tail) =>
      -- if(prev) prev->next = std::move(next); else _lru_head = std::move(next);
      -- the third component is the node the assigned pointer owned before the assignment
      let r2 : Option (List lru_node × Option Ptr × Option Ptr) :=
        match prev with
        | some q =>
          match a2[q]? with
          | none => none
          | some pn => some (a2.set q { pn with next := next }, s._lru_head, pn.next)
        | none => some (a2, next, s._lru_head)
      match r2 with
      | none => none
      | some (a3, head, owned) =>
        -- _cur_size -= tmp.key.size() + tmp.value.size();
        if owned = some p then none        -- tmp was destroyed by the assignment above
        else
          some { s with
            arena := a3, _lru_head := head, _lru_tail := tail,
            _cur_size := size_sub s._cur_size (tmp.key.length + tmp.value.length) }

/-- `SimpleLRU::MoveNodeToTail(lru_node &tmp)`, lines 34-53; `p` is the address of `tmp`. -/
def MoveNodeToTail (s : SimpleLRU) (p : Ptr) : Option SimpleLRU :=
  match s.arena[p]? with
  | none => none
  | some tmp =>
    match tmp.next with
    | none => some s                       -- if(!tmp.next) return;
    | some n =>
      -- auto next = std::move(tmp.next);  auto prev = tmp.prev;
      let a1 := s.arena.set p { tmp with next := none }
      let prev := tmp.prev
      -- next->prev = prev;
      match a1[n]? with
      | none => none
      | some nn =>
        let a2 := a1.set n { nn with prev := prev }
        match s._lru_tail with
        | none => none                     -- _lru_tail->next on a null tail
        | some t =>
          let r : Option (List lru_node × Option Ptr) :=
            match prev with
            | some q =>
              -- _lru_tail->next = std::move(prev->next);  prev->next = std::move(next);
              match a2[q]? with
              | none => none
              | some pn =>
                let a3 := a2.set q { pn with next := none }
                match a3[t]? with
                | none => none
                | some tn =>
                  let a4 := a3.set t { tn with next := pn.next }
                  match a4[q]? with
                  | none => none
                  | some pn2 => some (a4.set q { pn2 with next := some n }, s._lru_head)
            | none =>
              -- _lru_tail->next = std::move(_lru_head);  _lru_head = std::move(next);
              match a2[t]? with
              | none => none
              | some tn => some (a2.set t { tn with next := s._lru_head }, some n)
          match r with
          | none => none
          | some (a5, head) =>
            -- tmp.prev = _lru_tail;  _lru_tail = &tmp;
            match a5[p]? with
            | none => none
            | some tmp2 =>
              some { s with
                arena := a5.set p { tmp2 with prev := some t },
                _lru_head := head, _lru_tail := some p }

/-- The body of the eviction loop,
`_lru_index.erase(_lru_head->key); DeleteNode(*_lru_head.get());` (lines 57-58 and 80-81). -/
def evict_body (s : SimpleLRU) : Option SimpleLRU :=
  match s._lru_head with
  | none => none                           -- _lru_head->key on a null head
  | some h =>
    match s.arena[h]? with
    | none => none
    | some hn => DeleteNode { s with _lru_index := index_erase s._lru_index hn.key } h

/-- The loop `while(cond) { _lru_index.erase(_lru_head->key); DeleteNode(*_lru_head.get()); }`
of `InsertNewNode` (lines 56-59) and of `ChangeNode` (lines 79-82), which differ in `cond`
only.  `cond` is `none` when evaluating the condition dereferences a bad pointer.  The first
argument bounds the number of iterations; the callers pass the number of nodes in the arena,
and an iteration that is still due when the bound is used up gives `none`. -/
def evict_while (cond : SimpleLRU → Option Bool) : Nat → SimpleLRU → Option SimpleLRU
  | 0, s =>
    match cond s with
    | some false => some s
    | _ => none
  | fuel + 1, s =>
    match cond s with
    | none => none
    | some false => some s
    | some true =>
      match evict_body s with
      | none => none
      | some s1 => evict_while cond fuel s1

/-- The loop condition of `InsertNewNode`, line 56:
`_cur_size + key.size() + value.size() > _max_size`. -/
def InsertNewNode_cond (key value : String) (t : SimpleLRU) : Option Bool :=
  some (decide (size_add (size_add t._cur_size key.length) value.length > t._max_size))

/-- The loop condition of `ChangeNode`, line 79:
`_cur_size - tmp.value.size() + value.size() > _max_size`, `p` being the address of `tmp`. -/
def ChangeNode_cond (p : Ptr) (value : String) (t : SimpleLRU) : Option Bool :=
  (t.arena[p]?).map (fun tmp =>
    decide (size_add (size_sub t._cur_size tmp.value.length) value.length > t._max_size))

/-- `SimpleLRU::InsertNewNode(key, value)`, lines 55-74. -/
def InsertNewNode (s : SimpleLRU) (key value : String) : Option SimpleLRU :=
  -- while(_cur_size + key.size() + value.size() > _max_size) ...
  match evict_while (InsertNewNode_cond key value) s.arena.length s with
  | none => none
  | some s1 =>
    -- _cur_size += key.size() + value.size();
    let s2 := { s1 with _cur_size := size_add s1._cur_size (key.length + value.length) }
    let fresh : Ptr := s2.arena.length
    match s2._lru_head with
    | none =>
      -- _lru_head = make_unique(lru_node{ key, value, nullptr, nullptr }); _lru_tail = _lru_head.get();
      some { s2 with
        arena := s2.arena ++ [{ key := key, value := value, prev := none, next := none }],
        _lru_head := some fresh, _lru_tail := some fresh,
        _lru_index := index_insert s2._lru_index key fresh }
    | some _ =>
      -- _lru_tail->next = make_unique(lru_node{ key, value, _lru_tail, nullptr });
      -- _lru_tail = _lru_tail->next.get();
      match s2._lru_tail with
      | none => none
      | some t =>
        match s2.arena[t]? with
        | none => none
        | some tn =>
          let a1 := s2.arena ++ [{ key := key, value := value, prev := some t, next := none }]
          some { s2 with
            arena := a1.set t { tn with next := some fresh },
            _lru_tail := some fresh,
            _lru_index := index_insert s2._lru_index key fresh }

/-- `SimpleLRU::ChangeNode(lru_node &tmp, value)`, lines 76-87; `p` is the address of `tmp`. -/
def ChangeNode (s : SimpleLRU) (p : Ptr) (value : String) : Option SimpleLRU :=
  match MoveNodeToTail s p with
  | none => none
  | some s1 =>
    -- while(_cur_size - tmp.value.size() + value.size() > _max_size) ...
    match evict_while (ChangeNode_cond p value) s1.arena.length s1 with
    | none => none
    | some s2 =>
      match s2.arena[p]? with
      | none => none
      | some tmp =>
        -- _cur_size -= tmp.value.size();  _cur_size += value.size();  tmp.value = value;
        some { s2 with
          _cur_size := size_add (size_sub s2._cur_size tmp.value.length) value.length,
          arena := s2.arena.set p { tmp with value := value } }

/-- `SimpleLRU::Put(key, value)`, lines 90-102. -/
def Put (s : SimpleLRU) (key value : String) : Option (SimpleLRU × Bool) :=
  if key.length + value.length > s._max_size then some (s, false)
  else
    match index_find s._lru_index key with
    | some p => (ChangeNode s p value).map (fun s1 => (s1, true))
    | none => (InsertNewNode s key value).map (fun s1 => (s1, true))

/-- `SimpleLRU::PutIfAbsent(key, value)`, lines 105-116. -/
def PutIfAbsent (s : SimpleLRU) (key value : String) : Option (SimpleLRU × Bool) :=
  if key.length + value.length > s._max_size then some (s, false)
  else
    match index_find s._lru_index key with
    | some _ => some (s, false)
    | none => (InsertNewNode s key value).map (fun s1 => (s1, true))

/-- `SimpleLRU::Set(key, value)`, lines 119-130. -/
def Set (s : SimpleLRU) (key value : String) : Option (SimpleLRU × Bool) :=
  if key.length + value.length > s._max_size then some (s, false)
  else
    match index_find s._lru_index key with
    | none => some (s, false)
    | some p => (ChangeNode s p value).map (fun s1 => (s1, true))

/-- `SimpleLRU::Delete(key)`, lines 133-145. -/
def Delete (s : SimpleLRU) (key : String) : Option (SimpleLRU × Bool) :=
  match index_find s._lru_index key with
  | none => some (s, false)
  | some p =>
    -- lru_node &tmp = it->second.get();  _lru_index.erase(it);  DeleteNode(tmp);
    (DeleteNode { s with _lru_index := index_erase s._lru_index key } p).map
      (fun s1 => (s1, true))

/-- `SimpleLRU::Get(key, value)`, lines 148-160.  `value` is the caller's output string; the
result carries its contents after the call. -/
def Get (s : SimpleLRU) (key : String) (value : String) : Option (SimpleLRU × String × Bool) :=
  match index_find s._lru_index key with
  | none => some (s, value, false)
  | some p =>
    -- lru_node &tmp = it->second.get();  value = tmp.value;  MoveNodeToTail(tmp);
    match s.arena[p]? with
    | none => none
    | some tmp => (MoveNodeToTail s p).map (fun s1 => (s1, tmp.value, true))

/-- An entry of the recency chain as seen from outside: its address, key and value. -/
abbrev Item := Ptr × String × String

/-- Byte cost of a list of entries: the sum of `len(key) + len(value)`. -/
def cost : List (String × String) → Nat
  | [] => 0
  | e :: es => e.1.length + e.2.length + cost es

/-- Address of the first item, or `d` for the empty list. -/
def firstOr (xs : List Item) (d : Option Ptr) : Option Ptr :=
  match xs with
  | [] => d
  | x :: _ => some x.1

/-- Address of the last item, or `d` for the empty list. -/
def lastOr (xs : List Item) (d : Option Ptr) : Option Ptr :=
  match xs with
  | [] => d
  | x :: ys => lastOr ys (some x.1)

/-- The items `xs` are consecutive nodes of the arena: each node carries the key and value of
its item, its `next` is the following item (`nxt` after the last one) and its `prev` the
preceding item (`prev` before the first one). -/
def Links (a : List lru_node) : Option Ptr → List Item → Option Ptr → Prop
  | _, [], _ => True
  | prev, x :: xs, nxt =>
    a[x.1]? = some { key := x.2.1, value := x.2.2, prev := prev, next := firstOr xs nxt } ∧
      Links a (some x.1) xs nxt

/-- Walks the chain from `cur` along the `next` pointers, for at most `fuel` nodes. -/
def walk (a : List lru_node) : Nat → Option Ptr → List (Ptr × lru_node)
  | 0, _ => []
  | _ + 1, none => []
  | fuel + 1, some p =>
    match a[p]? with
    | none => []
    | some n => (p, n) :: walk a fuel n.next

/-- The recency chain: the nodes reached from `_lru_head`, least recently used first. -/
def SimpleLRU.chain (s : SimpleLRU) : List (Ptr × lru_node) :=
  walk s.arena s.arena.length s._lru_head

/-- The cache contents in recency order: key and value of every node of the chain. -/
def SimpleLRU.entries (s : SimpleLRU) : List (String × String) :=
  s.chain.map (fun e => (e.2.key, e.2.value))

/-- The chain of `s` consists of the items `xs`, in this order: their nodes are doubly linked
from `_lru_head` to `_lru_tail`, and no node occurs twice. -/
structure Linked (s : SimpleLRU) (xs : List Item) : Prop where
  links : Links s.arena none xs none
  head : s._lru_head = firstOr xs none
  tail : s._lru_tail = lastOr xs none
  ptrs : (xs.map (fun x => x.1)).Nodup

/-- The state `s` holds exactly the items `xs`, in this order, and all the invariants of the
data model hold: the nodes of `xs` are doubly linked from `_lru_head` to `_lru_tail`, no node
and no key occurs twice, the index maps exactly the keys of `xs`, each to its node, `_cur_size`
is the cost of `xs` and at most `_max_size`, and `_max_size` is a `std::size_t` value. -/
structure Rep (s : SimpleLRU) (xs : List Item) : Prop where
  links : Links s.arena none xs none
  head : s._lru_head = firstOr xs none
  tail : s._lru_tail = lastOr xs none
  ptrs : (xs.map (fun x => x.1)).Nodup
  keys : (xs.map (fun x => x.2.1)).Nodup
  idx : ∀ k p, (k, p) ∈ s._lru_index ↔ ∃ v, (p, k, v) ∈ xs
  idxnd : (s._lru_index.map Prod.fst).Nodup
  size : s._cur_size = cost (xs.map Prod.snd)
  cap : s._cur_size ≤ s._max_size
  word : s._max_size < 2 ^ SIZE_BITS

/-- The invariants of the data model hold in `s`. -/
def Inv (s : SimpleLRU) : Prop := ∃ xs, Rep s xs

/-- A call of one of the five public operations. -/
inductive Op where
  | put (key value : String)
  | putIfAbsent (key value : String)
  | set (key value : String)
  | delete (key : String)
  | get (key : String)
  deriving DecidableEq

/-- One call: the state it leaves and the boolean it returns.  For `Get` the caller's output
string is empty before the call. -/
def step (s : SimpleLRU) : Op → Option (SimpleLRU × Bool)
  | .put key value => Put s key value
  | .putIfAbsent key value => PutIfAbsent s key value
  | .set key value => Set s key value
  | .delete key => Delete s key
  | .get key => (Get s key "").map (fun r => (r.1, r.2.2))

/-- A sequence of calls, one after the other: the state after the last one.  `none` when one
of the calls has no defined result. -/
def run (s : SimpleLRU) : List Op → Option SimpleLRU
  | [] => some s
  | op :: ops => (step s op).bind (fun r => run r.1 ops)

/-- Key and value of the node `_lru_tail` points to. -/
def SimpleLRU.tail_entry (s : SimpleLRU) : Option (String × String) :=
  match s._lru_tail with
  | none => none
  | some t => (s.arena[t]?).map (fun n => (n.key, n.value))

/-- The value the cache holds for `key`: the value of the entry of the chain with that key. -/
def SimpleLRU.value_of (s : SimpleLRU) (key : String) : Option String :=
  List.lookup key s.entries

/-- Reference for the update path, step (2) in the words of the specification: the length of
the shortest prefix of the other entries whose removal from the head makes
`current_size - len(o) + len(v) <= max_size` hold for the remaining size, the entry `(k, o)`
standing behind the other entries. -/
def update_reference_count (max_size : Nat) (others : List (String × String)) (k o v : String) :
    Nat :=
  ((List.range (others.length + 1)).find?
    (fun n => decide (cost (others.drop n ++ [(k, o)]) - o.length + v.length ≤ max_size))).getD
    others.length

/-- Reference for the update path in the words of the specification: (1) the entry of `k`
moves to the tail, (2) the shortest prefix of the other entries that makes the new size fit is
removed from the head, (3) the value of `k` is replaced by `v`. -/
def update_reference (max_size : Nat) (es : List (String × String)) (k o v : String) :
    List (String × String) :=
  let others := es.filter (fun e => e.1 != k)
  others.drop (update_reference_count max_size others k o v) ++ [(k, v)]

/-- Reference for the insert path in the words of the specification: the shortest prefix of
the recency order whose removal makes `current_size + len(k) + len(v) <= max_size` is removed
from the head, and `(k, v)` is appended at the tail. -/
def insert_reference (max_size : Nat) (es : List (String × String)) (k v : String) :
    List (String × String) :=
  let n := ((List.range (es.length + 1)).find?
    (fun n => decide (cost (es.drop n) + (k.length + v.length) ≤ max_size))).getD es.length
  es.drop n ++ [(k, v)]

/-- The cache of capacity 10 after `Put("a","1")` and `Put("bb","22")`. -/
def cache_ab : SimpleLRU :=
  { _max_size := 10, _cur_size := 6, _lru_index := [("bb", 1), ("a", 0)],
    _lru_head := some 0, _lru_tail := some 1,
    arena := [{ key := "a", value := "1", prev := none, next := some 1 },
              { key := "bb", value := "22", prev := some 0, next := none }] }

/-- The cache of capacity 5 after `Put("xy","z")`. -/
def cache_xy : SimpleLRU :=
  { _max_size := 5, _cur_size := 3, _lru_index := [("xy", 0)],
    _lru_head := some 0, _lru_tail := some 0,
    arena := [{ key := "xy", value := "z", prev := none, next := none }] }

/-- The cache `cache_ab` after `Put("c","3")`. -/
def cache_abc : SimpleLRU :=
  { _max_size := 10, _cur_size := 8, _lru_index := [("c", 2), ("bb", 1), ("a", 0)],
    _lru_head := some 0, _lru_tail := some 2,
    arena := [{ key := "a", value := "1", prev := none, next := some 1 },
              { key := "bb", value := "22", prev := some 0, next := some 2 },
              { key := "c", value := "3", prev := some 1, next := none }] }

/-! ## Arithmetic -/

theorem size_sub_eq {a b : Nat} (hb : b ≤ a) (ha : a < 2 ^ SIZE_BITS) : size_sub a b = a - b := by
  unfold size_sub
  have h : a + 2 ^ SIZE_BITS - b = (a - b) + 2 ^ SIZE_BITS := by omega
  rw [h, Nat.add_mod_right, Nat.mod_eq_of_lt (by omega)]

theorem size_add_eq {a b : Nat} (h : a + b < 2 ^ SIZE_BITS) : size_add a b = a + b :=
  Nat.mod_eq_of_lt h

theorem size_add_assoc (a b c : Nat) : size_add (size_add a b) c = size_add a (b + c) := by
  unfold size_add
  rw [Nat.add_mod, Nat.mod_mod, ← Nat.add_mod, Nat.add_assoc]

theorem cost_append (l r : List (String × String)) : cost (l ++ r) = cost l + cost r := by
  induction l with
  | nil => simp [cost]
  | cons e es ih => simp [cost, ih]; omega

/-! ## The index -/

theorem index_find_eq_some {m : Index} (hnd : (m.map Prod.fst).Nodup) (k : String) (p : Ptr) :
    index_find m k = some p ↔ (k, p) ∈ m := by
  induction m with
  | nil => simp [index_find, List.lookup]
  | cons e es ih =>
    obtain ⟨k1, p1⟩ := e
    simp only [List.map_cons, List.nodup_cons] at hnd
    unfold index_find at ih ⊢
    by_cases hk : k = k1
    · subst hk
      simp only [List.lookup, beq_self_eq_true, List.mem_cons, Prod.mk.injEq, true_and]
      constructor
      · intro h; left; exact (Option.some.inj h).symm
      · rintro (h | h)
        · rw [h]
        · exact absurd (List.mem_map_of_mem Prod.fst h) hnd.1
    · have hb : (k == k1) = false := by simpa using hk
      simp only [List.lookup, hb, List.mem_cons, Prod.mk.injEq, hk, false_and, false_or]
      exact ih hnd.2

theorem index_find_eq_none {m : Index} (k : String) :
    index_find m k = none ↔ k ∉ m.map Prod.fst := by
  induction m with
  | nil => simp [index_find, List.lookup]
  | cons e es ih =>
    obtain ⟨k1, p1⟩ := e
    unfold index_find at ih ⊢
    by_cases hk : k = k1
    · subst hk; simp [List.lookup]
    · have hb : (k == k1) = false := by simpa using hk
      simp only [List.lookup, hb, List.map_cons, List.mem_cons, hk, false_or]
      exact ih

/-! ## Chain links -/

@[simp] theorem firstOr_nil (d : Option Ptr) : firstOr [] d = d := rfl

@[simp] theorem firstOr_cons (x : Item) (xs : List Item) (d : Option Ptr) :
    firstOr (x :: xs) d = some x.1 := rfl

@[simp] theorem lastOr_nil (d : Option Ptr) : lastOr [] d = d := rfl

@[simp] theorem lastOr_cons (x : Item) (xs : List Item) (d : Option Ptr) :
    lastOr (x :: xs) d = lastOr xs (some x.1) := rfl

theorem firstOr_append (l r : List Item) (d : Option Ptr) :
    firstOr (l ++ r) d = firstOr l (firstOr r d) := by
  cases l <;> rfl

theorem lastOr_append (l r : List Item) (d : Option Ptr) :
    lastOr (l ++ r) d = lastOr r (lastOr l d) := by
  induction l generalizing d with
  | nil => rfl
  | cons x l ih => simp only [List.cons_append, lastOr]; exact ih _

theorem lastOr_concat (l : List Item) (x : Item) (d : Option Ptr) :
    lastOr (l ++ [x]) d = some x.1 := by
  rw [lastOr_append]; rfl

theorem Links_append {a : List lru_node} {l r : List Item} {prev nxt : Option Ptr} :
    Links a prev (l ++ r) nxt ↔ Links a prev l (firstOr r nxt) ∧ Links a (lastOr l prev) r nxt := by
  induction l generalizing prev with
  | nil => simp [Links, lastOr]
  | cons x l ih =>
    simp only [List.cons_append, Links, lastOr, List.append_eq, ih, firstOr_append, and_assoc]

theorem Links_frame {a : List lru_node} {xs : List Item} {prev nxt : Option Ptr} (q : Ptr)
    (n : lru_node) (hq : ∀ x ∈ xs, x.1 ≠ q) (h : Links a prev xs nxt) :
    Links (a.set q n) prev xs nxt := by
  induction xs generalizing prev with
  | nil => trivial
  | cons x xs ih =>
    obtain ⟨h1, h2⟩ := h
    refine ⟨?_, ih (fun y hy => hq y (List.mem_cons_of_mem _ hy)) h2⟩
    rw [List.getElem?_set_ne (Ne.symm (hq x (List.mem_cons_self _ _)))]
    exact h1

theorem getElem?_grow {a : List lru_node} (b : List lru_node) {p : Ptr} {n : lru_node}
    (h : a[p]? = some n) : (a ++ b)[p]? = some n := by
  have hlt : p < a.length := by
    by_contra hge
    have hle : a.length ≤ p := Nat.le_of_not_lt hge
    rw [List.getElem?_eq_none hle] at h
    cases h
  rw [List.getElem?_append_left hlt]; exact h

theorem Links_grow {a : List lru_node} {xs : List Item} {prev nxt : Option Ptr}
    (b : List lru_node) (h : Links a prev xs nxt) : Links (a ++ b) prev xs nxt := by
  induction xs generalizing prev with
  | nil => trivial
  | cons x xs ih => exact ⟨getElem?_grow b h.1, ih h.2⟩

theorem Links_lt {a : List lru_node} {xs : List Item} {prev nxt : Option Ptr}
    (h : Links a prev xs nxt) : ∀ x ∈ xs, x.1 < a.length := by
  induction xs generalizing prev with
  | nil => intro x hx; cases hx
  | cons y ys ih =>
    intro x hx
    rcases List.mem_cons.1 hx with rfl | hx
    · by_contra hge
      have hle : a.length ≤ x.1 := Nat.le_of_not_lt hge
      have := h.1
      rw [List.getElem?_eq_none hle] at this
      cases this
    · exact ih h.2 x hx

/-- Every item of a linked list of items is a node of the arena with that key and value. -/
theorem Links_node {a : List lru_node} {xs : List Item} {prev nxt : Option Ptr}
    (h : Links a prev xs nxt) :
    ∀ x ∈ xs, ∃ n, a[x.1]? = some n ∧ n.key = x.2.1 ∧ n.value = x.2.2 := by
  induction xs generalizing prev with
  | nil => intro x hx; cases hx
  | cons y ys ih =>
    intro x hx
    rcases List.mem_cons.1 hx with rfl | hx
    · exact ⟨_, h.1, rfl, rfl⟩
    · exact ih h.2 x hx

/-- Rewriting the back pointer of the first node. -/
theorem Links_set_prev {a : List lru_node} {x : Item} {xs : List Item} {prev nxt : Option Ptr}
    (hnd : ((x :: xs).map (fun y => y.1)).Nodup) (h : Links a prev (x :: xs) nxt)
    (prev1 : Option Ptr) :
    Links (a.set x.1 { key := x.2.1, value := x.2.2, prev := prev1, next := firstOr xs nxt })
      prev1 (x :: xs) nxt := by
  have hlt := Links_lt h x (List.mem_cons_self _ _)
  simp only [List.map_cons, List.nodup_cons, List.mem_map, not_exists, not_and] at hnd
  refine ⟨?_, Links_frame _ _ (fun y hy e => hnd.1 y hy e) h.2⟩
  rw [List.getElem?_set_self hlt]

/-- Rewriting the forward pointer of the last node. -/
theorem Links_set_next {a : List lru_node} {l : List Item} {x : Item} {prev nxt : Option Ptr}
    (hnd : ((l ++ [x]).map (fun y => y.1)).Nodup) (h : Links a prev (l ++ [x]) nxt)
    (nxt1 : Option Ptr) :
    Links (a.set x.1 { key := x.2.1, value := x.2.2, prev := lastOr l prev, next := nxt1 })
      prev (l ++ [x]) nxt1 := by
  rw [Links_append] at h ⊢
  have hlt := Links_lt h.2 x (List.mem_cons_self _ _)
  simp only [List.map_append, List.map_cons, List.map_nil, List.nodup_append, List.nodup_cons,
    List.not_mem_nil, not_false_eq_true, List.nodup_nil, and_self, and_true,
    List.disjoint_singleton, List.mem_map, not_exists, not_and] at hnd
  refine ⟨Links_frame _ _ (fun y hy e => hnd.2.2 y hy e) h.1, ?_, trivial⟩
  rw [List.getElem?_set_self hlt]; rfl

/-- The node stored for the last item. -/
theorem Links_last {a : List lru_node} {l : List Item} {x : Item} {prev nxt : Option Ptr}
    (h : Links a prev (l ++ [x]) nxt) :
    a[x.1]? = some { key := x.2.1, value := x.2.2, prev := lastOr l prev, next := nxt } := by
  rw [Links_append] at h
  exact h.2.1

/-- Walking a linked list of items from its first node visits exactly these items. -/
theorem walk_Links {a : List lru_node} {xs : List Item} {prev : Option Ptr} {fuel : Nat}
    (h : Links a prev xs none) (hf : xs.length ≤ fuel) :
    (walk a fuel (firstOr xs none)).map (fun e => (e.1, e.2.key, e.2.value)) = xs := by
  induction xs generalizing prev fuel with
  | nil => cases fuel <;> rfl
  | cons x xs ih =>
    cases fuel with
    | zero => simp at hf
    | succ fuel =>
      simp only [firstOr, walk, h.1, List.map_cons, List.cons.injEq, true_and]
      exact ih h.2 (by simpa using hf)

theorem length_le_of_nodup_lt {ps : List Nat} {n : Nat} (hnd : ps.Nodup) (hlt : ∀ p ∈ ps, p < n) :
    ps.length ≤ n := by
  have h1 : ps.toFinset ⊆ Finset.range n := by
    intro p hp
    exact Finset.mem_range.2 (hlt p (List.mem_toFinset.1 hp))
  have h2 := Finset.card_le_card h1
  rwa [List.toFinset_card_of_nodup hnd, Finset.card_range] at h2

theorem Rep.linked {s : SimpleLRU} {xs : List Item} (h : Rep s xs) : Linked s xs :=
  ⟨h.links, h.head, h.tail, h.ptrs⟩

theorem Linked.length_le_arena {s : SimpleLRU} {xs : List Item} (h : Linked s xs) :
    xs.length ≤ s.arena.length := by
  have := length_le_of_nodup_lt h.ptrs (n := s.arena.length) (by
    intro p hp
    obtain ⟨x, hx, rfl⟩ := List.mem_map.1 hp
    exact Links_lt h.links x hx)
  simpa using this

/-- The walk from the head visits exactly the items of the chain. -/
theorem Linked.chain_items {s : SimpleLRU} {xs : List Item} (h : Linked s xs) :
    s.chain.map (fun e => (e.1, e.2.key, e.2.value)) = xs := by
  unfold SimpleLRU.chain
  rw [h.head]
  exact walk_Links h.links h.length_le_arena

theorem Linked.entries_items {s : SimpleLRU} {xs : List Item} (h : Linked s xs) :
    s.entries = xs.map Prod.snd := by
  rw [← h.chain_items]
  simp [SimpleLRU.entries, Function.comp_def]

/-- The last item of the chain is the node the tail pointer designates. -/
theorem Linked.tail_is {s : SimpleLRU} {ys : List Item} {x : Item} (h : Linked s (ys ++ [x])) :
    s.tail_entry = some (x.2.1, x.2.2) ∧ s.entries.getLast? = some (x.2.1, x.2.2) := by
  constructor
  · simp only [SimpleLRU.tail_entry, h.tail, lastOr_concat, Links_last h.links, Option.map_some']
  · rw [h.entries_items]; simp

theorem Rep.length_le {s : SimpleLRU} {xs : List Item} (h : Rep s xs) :
    xs.length ≤ s.arena.length :=
  h.linked.length_le_arena

theorem Rep.chain_eq {s : SimpleLRU} {xs : List Item} (h : Rep s xs) :
    s.chain.map (fun e => (e.1, e.2.key, e.2.value)) = xs :=
  h.linked.chain_items

theorem Rep.entries_eq {s : SimpleLRU} {xs : List Item} (h : Rep s xs) :
    s.entries = xs.map Prod.snd :=
  h.linked.entries_items

/-! ## DeleteNode -/

theorem nodup_mid {l r : List Item} {x : Item}
    (hnd : ((l ++ x :: r).map (fun y => y.1)).Nodup) :
    (∀ y ∈ l, y.1 ≠ x.1) ∧ (∀ y ∈ r, y.1 ≠ x.1) ∧ (∀ y ∈ l, ∀ z ∈ r, y.1 ≠ z.1) ∧
      ((l ++ r).map (fun y => y.1)).Nodup := by
  rw [List.map_append, List.map_cons, List.nodup_middle, List.nodup_cons, ← List.map_append] at hnd
  obtain ⟨hx, hn⟩ := hnd
  refine ⟨?_, ?_, ?_, hn⟩
  · intro y hy e
    exact hx (List.mem_map.2 ⟨y, List.mem_append_left _ hy, e⟩)
  · intro y hy e
    exact hx (List.mem_map.2 ⟨y, List.mem_append_right _ hy, e⟩)
  · intro y hy z hz e
    rw [List.map_append, List.nodup_append] at hn
    exact hn.2.2 (List.mem_map.2 ⟨y, hy, rfl⟩) (List.mem_map.2 ⟨z, hz, e.symm⟩)

/-- Unlinking the node of the item `x` from a well-linked chain `l ++ x :: r` has no defined
result: the pointer assigned in line 26 (the `next` of the preceding node) or in line 28
(`_lru_head`) is the one that owns the node of `x`, so the assignment destroys the node, and
line 31 reads it afterwards. -/
theorem DeleteNode_undefined {s : SimpleLRU} {l r : List Item} {x : Item}
    (hl : Links s.arena none (l ++ x :: r) none)
    (hh : s._lru_head = firstOr (l ++ x :: r) none)
    (hnd : ((l ++ x :: r).map (fun y => y.1)).Nodup) :
    DeleteNode s x.1 = none := by
  obtain ⟨hlx, hrx, hlr, -⟩ := nodup_mid hnd
  rw [Links_append] at hl
  obtain ⟨h1, hx, h2⟩ := hl
  simp only [firstOr_cons] at h1
  rcases List.eq_nil_or_concat' l with rfl | ⟨l1, z, rfl⟩
  · simp only [List.nil_append, firstOr_cons] at hh
    cases r with
    | nil =>
      simp only [lastOr_nil, firstOr_nil, firstOr_cons] at hx
      simp only [DeleteNode, hx, hh, if_true]
    | cons y r1 =>
      simp only [lastOr_nil, firstOr_nil, firstOr_cons] at hx
      have hyx : y.1 ≠ x.1 := hrx y (List.mem_cons_self _ _)
      have hy : (s.arena.set x.1 { key := x.2.1, value := x.2.2, prev := none, next := none })[y.1]? =
          some { key := y.2.1, value := y.2.2, prev := some x.1, next := firstOr r1 none } := by
        rw [List.getElem?_set_ne (Ne.symm hyx)]; exact h2.1
      simp only [DeleteNode, hx, hy, hh, if_true]
  · have hz0 := Links_last h1
    have hzx : z.1 ≠ x.1 := hlx z (by simp)
    simp only [lastOr_concat] at hx h2
    cases r with
    | nil =>
      simp only [firstOr_nil, firstOr_cons] at hx
      have hz : (s.arena.set x.1 { key := x.2.1, value := x.2.2, prev := some z.1, next := none })[z.1]? =
          some { key := z.2.1, value := z.2.2, prev := lastOr l1 none, next := some x.1 } := by
        rw [List.getElem?_set_ne (Ne.symm hzx)]; exact hz0
      simp only [DeleteNode, hx, hz, if_true]
    | cons y r1 =>
      simp only [firstOr_nil, firstOr_cons] at hx
      have hyx : y.1 ≠ x.1 := hrx y (List.mem_cons_self _ _)
      have hzy : z.1 ≠ y.1 := hlr z (by simp) y (List.mem_cons_self _ _)
      have hy : (s.arena.set x.1 { key := x.2.1, value := x.2.2, prev := some z.1, next := none })[y.1]? =
          some { key := y.2.1, value := y.2.2, prev := some x.1, next := firstOr r1 none } := by
        rw [List.getElem?_set_ne (Ne.symm hyx)]; exact h2.1
      have hz : ((s.arena.set x.1 { key := x.2.1, value := x.2.2, prev := some z.1, next := none }).set
          y.1 { key := y.2.1, value := y.2.2, prev := some z.1, next := firstOr r1 none })[z.1]? =
          some { key := z.2.1, value := z.2.2, prev := lastOr l1 none, next := some x.1 } := by
        rw [List.getElem?_set_ne (Ne.symm hzy), List.getElem?_set_ne (Ne.symm hzx)]; exact hz0
      simp only [DeleteNode, hx, hy, hz, if_true]

/-! ## MoveNodeToTail -/

theorem Links_first {a : List lru_node} {r r1 : List Item} {y : Item} {prev nxt : Option Ptr}
    (hr : r = y :: r1) (h : Links a prev r nxt) :
    a[y.1]? = some { key := y.2.1, value := y.2.2, prev := prev, next := firstOr r1 nxt } := by
  subst hr; exact h.1

theorem Links_last_of {a : List lru_node} {r r0 : List Item} {t : Item} {prev nxt : Option Ptr}
    (hr : r = r0 ++ [t]) (h : Links a prev r nxt) :
    a[t.1]? = some { key := t.2.1, value := t.2.2, prev := lastOr r0 prev, next := nxt } := by
  subst hr; exact Links_last h

theorem Links_set_prev_of {a : List lru_node} {r r1 : List Item} {y : Item}
    {prev nxt : Option Ptr} (hr : r = y :: r1) (hnd : (r.map (fun y => y.1)).Nodup)
    (h : Links a prev r nxt) (prev1 : Option Ptr) :
    Links (a.set y.1 { key := y.2.1, value := y.2.2, prev := prev1, next := firstOr r1 nxt })
      prev1 r nxt := by
  subst hr; exact Links_set_prev hnd h prev1

theorem Links_set_next_of {a : List lru_node} {r r0 : List Item} {t : Item}
    {prev nxt : Option Ptr} (hr : r = r0 ++ [t]) (hnd : (r.map (fun y => y.1)).Nodup)
    (h : Links a prev r nxt) (nxt1 : Option Ptr) :
    Links (a.set t.1 { key := t.2.1, value := t.2.2, prev := lastOr r0 prev, next := nxt1 })
      prev r nxt1 := by
  subst hr; exact Links_set_next hnd h nxt1

/-- Moving the node of the item `x` of a well-linked chain `l ++ x :: r` behind the tail. -/
theorem MoveNodeToTail_spec {s : SimpleLRU} {l r : List Item} {x : Item}
    (hl : Links s.arena none (l ++ x :: r) none)
    (hh : s._lru_head = firstOr (l ++ x :: r) none)
    (ht : s._lru_tail = lastOr (l ++ x :: r) none)
    (hnd : ((l ++ x :: r).map (fun y => y.1)).Nodup) :
    ∃ s1, MoveNodeToTail s x.1 = some s1 ∧ Links s1.arena none (l ++ r ++ [x]) none ∧
      s1._lru_head = firstOr (l ++ r ++ [x]) none ∧ s1._lru_tail = some x.1 ∧
      s1._cur_size = s._cur_size ∧ s1._lru_index = s._lru_index ∧
      s1._max_size = s._max_size ∧ s1.arena.length = s.arena.length ∧ (r = [] → s1 = s) := by
  obtain ⟨hlx, hrx, hlr, hndlr⟩ := nodup_mid hnd
  have hxlt : x.1 < s.arena.length := Links_lt hl x (by simp)
  have hndl : (l.map (fun y => y.1)).Nodup := by
    rw [List.map_append, List.nodup_append] at hndlr; exact hndlr.1
  have hndr : (r.map (fun y => y.1)).Nodup := by
    rw [List.map_append, List.nodup_append] at hndlr; exact hndlr.2.1
  have hl0 := hl
  rw [Links_append] at hl
  obtain ⟨h1, hx, h2⟩ := hl
  simp only [firstOr_cons] at h1
  rcases List.eq_nil_or_concat' r with rfl | ⟨r0, t, hr2⟩
  · simp only [firstOr_nil] at hx
    simp only [MoveNodeToTail, hx]
    refine ⟨_, rfl, ?_, ?_, ?_, rfl, rfl, rfl, rfl, fun _ => rfl⟩
    · simpa using hl0
    · rw [hh]; simp
    · rw [ht]; simp [lastOr_append]
  · obtain ⟨y, r1, hr1⟩ : ∃ y r1, r = y :: r1 := by
      cases r with
      | nil => simp at hr2
      | cons y r1 => exact ⟨y, r1, rfl⟩
    have hyr : y ∈ r := by rw [hr1]; simp
    have htr : t ∈ r := by rw [hr2]; simp
    have hyx : y.1 ≠ x.1 := hrx y hyr
    have htx : t.1 ≠ x.1 := hrx t htr
    have hfirst : firstOr r none = some y.1 := by rw [hr1]; rfl
    have htail : s._lru_tail = some t.1 := by
      rw [ht, lastOr_append, hr2]; simp [lastOr_append]
    rw [hfirst] at hx
    have B1 := Links_frame x.1
      { key := x.2.1, value := x.2.2, prev := lastOr l none, next := none } hrx h2
    have hy1 := Links_first hr1 B1
    have B2 := Links_set_prev_of hr1 hndr B1 (lastOr l none)
    have L1 := Links_frame x.1
      { key := x.2.1, value := x.2.2, prev := lastOr l none, next := none } hlx h1
    have L2 := Links_frame y.1
      { key := y.2.1, value := y.2.2, prev := lastOr l none, next := firstOr r1 none }
      (fun w hw => hlr w hw y hyr) L1
    rcases List.eq_nil_or_concat' l with rfl | ⟨l1, z, rfl⟩
    · simp only [lastOr_nil] at hx hy1 B2 L2 B1
      have ht2 := Links_last_of hr2 B2
      have B5 := Links_set_next_of hr2 hndr B2 (some x.1)
      have hhead : s._lru_head = some x.1 := by rw [hh]; rfl
      have hx5 : (((s.arena.set x.1 { key := x.2.1, value := x.2.2, prev := none, next := none }).set
          y.1 { key := y.2.1, value := y.2.2, prev := none, next := firstOr r1 none }).set
          t.1 { key := t.2.1, value := t.2.2, prev := lastOr r0 none, next := some x.1 })[x.1]? =
          some { key := x.2.1, value := x.2.2, prev := none, next := none } := by
        rw [List.getElem?_set_ne htx, List.getElem?_set_ne hyx, List.getElem?_set_self hxlt]
      have B6 := Links_frame x.1
        { key := x.2.1, value := x.2.2, prev := some t.1, next := none } hrx B5
      simp only [MoveNodeToTail, hx, hy1, htail, ht2, hhead, hx5]
      refine ⟨_, rfl, ?_, ?_, rfl, rfl, rfl, rfl, by simp, ?_⟩
      · rw [Links_append]
        refine ⟨by simpa using B6, ?_, trivial⟩
        rw [List.getElem?_set_self (by simpa using hxlt)]
        simp [hr2, lastOr_append]
      · simp [hr1]
      · intro h; rw [h] at hr1; cases hr1
    · have hzl : z ∈ l1 ++ [z] := by simp
      have hzx : z.1 ≠ x.1 := hlx z hzl
      have hzr : ∀ w ∈ r, w.1 ≠ z.1 := fun w hw => Ne.symm (hlr z hzl w hw)
      have hzlt : z.1 < s.arena.length := Links_lt h1 z hzl
      simp only [lastOr_concat] at hx hy1 B2 L2 B1
      have hz2 := Links_last L2
      have L3 := Links_set_next hndl L2 none
      have B3 := Links_frame z.1
        { key := z.2.1, value := z.2.2, prev := lastOr l1 none, next := none } hzr B2
      have ht3 := Links_last_of hr2 B3
      have B4 := Links_set_next_of hr2 hndr B3 (some x.1)
      have L4 := Links_frame t.1
        { key := t.2.1, value := t.2.2, prev := lastOr r0 (some z.1), next := some x.1 }
        (fun w hw => hlr w hw t htr) L3
      have hz4 := Links_last L4
      have L5 := Links_set_next hndl L4 (some y.1)
      have B5 := Links_frame z.1
        { key := z.2.1, value := z.2.2, prev := lastOr l1 none, next := some y.1 } hzr B4
      have hx5 : (((((s.arena.set x.1
          { key := x.2.1, value := x.2.2, prev := some z.1, next := none }).set
          y.1 { key := y.2.1, value := y.2.2, prev := some z.1, next := firstOr r1 none }).set
          z.1 { key := z.2.1, value := z.2.2, prev := lastOr l1 none, next := none }).set
          t.1 { key := t.2.1, value := t.2.2, prev := lastOr r0 (some z.1), next := some x.1 }).set
          z.1 { key := z.2.1, value := z.2.2, prev := lastOr l1 none, next := some y.1 })[x.1]? =
          some { key := x.2.1, value := x.2.2, prev := some z.1, next := none } := by
        rw [List.getElem?_set_ne hzx, List.getElem?_set_ne htx, List.getElem?_set_ne hzx,
          List.getElem?_set_ne hyx, List.getElem?_set_self hxlt]
      have L6 := Links_frame x.1
        { key := x.2.1, value := x.2.2, prev := some t.1, next := none } hlx L5
      have B6 := Links_frame x.1
        { key := x.2.1, value := x.2.2, prev := some t.1, next := none } hrx B5
      simp only [MoveNodeToTail, hx, hy1, htail, hz2, ht3, hz4, hx5]
      refine ⟨_, rfl, ?_, ?_, rfl, rfl, rfl, rfl, by simp, ?_⟩
      · rw [Links_append, Links_append]
        refine ⟨⟨?_, ?_⟩, ?_, trivial⟩
        · simpa [firstOr_append, hfirst, hr1] using L6
        · simpa [lastOr_append] using B6
        · rw [List.getElem?_set_self (by simpa using hxlt)]
          simp [hr2, lastOr_append]
      · rw [hh]; simp [firstOr_append]
      · intro h; rw [h] at hr1; cases hr1

/-! ## The invariants under MoveNodeToTail -/

theorem cost_mid (l r : List Item) (x : Item) :
    cost ((l ++ x :: r).map Prod.snd) =
      cost ((l ++ r).map Prod.snd) + (x.2.1.length + x.2.2.length) := by
  simp only [List.map_append, List.map_cons, cost_append, cost]
  omega

theorem cost_move (l r : List Item) (x : Item) :
    cost ((l ++ r ++ [x]).map Prod.snd) = cost ((l ++ x :: r).map Prod.snd) := by
  simp only [List.map_append, List.map_cons, List.map_nil, cost_append, cost]
  omega

theorem keys_mid {l r : List Item} {x : Item}
    (hk : ((l ++ x :: r).map (fun y => y.2.1)).Nodup) :
    (∀ y ∈ l ++ r, y.2.1 ≠ x.2.1) ∧ ((l ++ r).map (fun y => y.2.1)).Nodup := by
  rw [List.map_append, List.map_cons, List.nodup_middle, List.nodup_cons, ← List.map_append] at hk
  exact ⟨fun y hy e => hk.1 (List.mem_map.2 ⟨y, hy, e⟩), hk.2⟩

/-- Moving the node of an item behind the tail keeps the invariants, for the chain with that
item moved to the end. -/
theorem Rep.moveNodeToTail {s : SimpleLRU} {l r : List Item} {x : Item}
    (h : Rep s (l ++ x :: r)) :
    ∃ s1, MoveNodeToTail s x.1 = some s1 ∧ Rep s1 (l ++ r ++ [x]) ∧
      s1._max_size = s._max_size ∧ s1.arena.length = s.arena.length ∧ (r = [] → s1 = s) := by
  obtain ⟨s1, he, hl, hh, ht, hc, hi, hm, ha, hr⟩ :=
    MoveNodeToTail_spec h.links h.head h.tail h.ptrs
  have hperm : (l ++ r ++ [x]).Perm (l ++ x :: r) := by
    rw [List.append_assoc]
    exact List.Perm.append_left l (List.perm_append_singleton x r)
  refine ⟨s1, he, ⟨hl, hh, ?_, ?_, ?_, ?_, ?_, ?_, ?_, ?_⟩, hm, ha, hr⟩
  · rw [ht]; simp [lastOr_append]
  · exact (hperm.map _).nodup_iff.2 h.ptrs
  · exact (hperm.map _).nodup_iff.2 h.keys
  · intro k p
    rw [hi, h.idx]
    exact exists_congr (fun v => (hperm.mem_iff).symm)
  · rw [hi]; exact h.idxnd
  · rw [hc, cost_move]; exact h.size
  · rw [hc, hm]; exact h.cap
  · rw [hm]; exact h.word

/-! ## The eviction loop -/

/-- The body of the eviction loop has no defined result in a state that satisfies the
invariants: on an empty chain it dereferences the null head, and otherwise `DeleteNode`
reads the head node after destroying it. -/
theorem Rep.evict_body_undefined {s : SimpleLRU} {xs : List Item} (h : Rep s xs) :
    evict_body s = none := by
  cases xs with
  | nil =>
    have hhead : s._lru_head = none := h.head
    simp only [evict_body, hhead]
  | cons x xs =>
    have hx : s.arena[x.1]? = some _ := h.links.1
    have hhead : s._lru_head = some x.1 := h.head
    have hd := DeleteNode_undefined (l := []) (x := x) (r := xs)
      (s := { s with _lru_index := index_erase s._lru_index x.2.1 }) h.links h.head h.ptrs
    simp only [hhead] at hd
    simp only [evict_body, hhead, hx]
    exact hd

/-- The eviction loop in a state that satisfies the invariants: it returns, with the state
unchanged, when its condition is false at the first test, and it has no defined result when
the condition is true, since the first iteration has none. -/
theorem Rep.evict_while_eq {s : SimpleLRU} {xs : List Item} (h : Rep s xs)
    (cond : SimpleLRU → Option Bool) (fuel : Nat) :
    evict_while cond fuel s = if cond s = some false then some s else none := by
  cases fuel with
  | zero =>
    cases hc : cond s with
    | none => simp [evict_while, hc]
    | some b => cases b <;> simp [evict_while, hc]
  | succ fuel =>
    cases hc : cond s with
    | none => simp [evict_while, hc]
    | some b => cases b <;> simp [evict_while, hc, h.evict_body_undefined]

/-! ## InsertNewNode -/

theorem Rep.find_none {s : SimpleLRU} {xs : List Item} (h : Rep s xs) {k : String}
    (hk : k ∉ xs.map (fun y => y.2.1)) : index_find s._lru_index k = none := by
  rw [index_find_eq_none]
  intro hmem
  obtain ⟨⟨k1, p⟩, he, rfl⟩ := List.mem_map.1 hmem
  obtain ⟨v, hv⟩ := (h.idx k1 p).1 he
  exact hk (List.mem_map.2 ⟨_, hv, rfl⟩)

theorem Rep.find_some {s : SimpleLRU} {xs : List Item} (h : Rep s xs) {k : String} {p : Ptr} :
    index_find s._lru_index k = some p ↔ ∃ v, (p, k, v) ∈ xs := by
  rw [index_find_eq_some h.idxnd, h.idx]

/-- A node in a fresh slot of the arena is none of the nodes of the chain. -/
theorem Linked.snoc_ptrs {s : SimpleLRU} {E : List Item} (h : Linked s E) (k v : String) :
    ((E ++ [(s.arena.length, k, v)]).map (fun x => x.1)).Nodup := by
  rw [List.map_append, List.nodup_append]
  refine ⟨h.ptrs, by simp, ?_⟩
  simp only [List.map_cons, List.map_nil, List.disjoint_singleton]
  intro hmem
  obtain ⟨y, hy, he⟩ := List.mem_map.1 hmem
  have := Links_lt h.links y hy
  exact absurd he (Nat.ne_of_lt this)

/-- The invariants after a new item has been linked behind the chain. -/
theorem Rep.snoc {s1 s2 : SimpleLRU} {E : List Item} (h : Rep s1 E) (k v : String)
    (hk : k ∉ E.map (fun y => y.2.1))
    (hfit : s1._cur_size + (k.length + v.length) ≤ s1._max_size)
    (hl : Linked s2 (E ++ [(s1.arena.length, k, v)]))
    (hi : s2._lru_index = index_insert s1._lru_index k s1.arena.length)
    (hc : s2._cur_size = s1._cur_size + (k.length + v.length))
    (hm : s2._max_size = s1._max_size) :
    Rep s2 (E ++ [(s1.arena.length, k, v)]) := by
  have hfind := h.find_none hk
  have hidx : s2._lru_index = (k, s1.arena.length) :: s1._lru_index := by
    rw [hi]; unfold index_insert; rw [hfind]
  refine ⟨hl.links, hl.head, hl.tail, hl.ptrs, ?_, ?_, ?_, ?_, ?_, ?_⟩
  · rw [List.map_append, List.nodup_append]
    refine ⟨h.keys, by simp, ?_⟩
    simpa only [List.map_cons, List.map_nil, List.disjoint_singleton] using hk
  · intro k1 p1
    rw [hidx, List.mem_cons, h.idx]
    constructor
    · rintro (he | ⟨v1, hv1⟩)
      · exact ⟨v, by simp [Prod.ext_iff] at he; simp [he]⟩
      · exact ⟨v1, List.mem_append_left _ hv1⟩
    · rintro ⟨v1, hv1⟩
      rcases List.mem_append.1 hv1 with hv1 | hv1
      · exact Or.inr ⟨v1, hv1⟩
      · left
        simp only [List.mem_singleton, Prod.mk.injEq] at hv1
        simp [hv1.1, hv1.2.1]
  · rw [hidx, List.map_cons, List.nodup_cons]
    exact ⟨(index_find_eq_none k).1 hfind, h.idxnd⟩
  · rw [hc, h.size]
    simp only [List.map_append, List.map_cons, List.map_nil, cost_append, cost]
    omega
  · rw [hc, hm]; exact hfit
  · rw [hm]; exact h.word

/-- Inserting a key that is not in the cache, in a state that satisfies the invariants.  When
the loop condition of line 56 is true, the call has no defined result (the first iteration
of the loop has none).  When it is false, nothing is evicted and the new item is linked
behind the tail, in a fresh node; the invariants hold again unless the addition in line 61
has wrapped around. -/
theorem Rep.insertNewNode_cases {s : SimpleLRU} {xs : List Item} (h : Rep s xs) (k v : String)
    (hk : k ∉ xs.map (fun y => y.2.1)) :
    (size_add (size_add s._cur_size k.length) v.length > s._max_size ∧
        InsertNewNode s k v = none) ∨
      (size_add (size_add s._cur_size k.length) v.length ≤ s._max_size ∧
        ∃ s1, InsertNewNode s k v = some s1 ∧ Linked s1 (xs ++ [(s.arena.length, k, v)]) ∧
          s1._max_size = s._max_size ∧
          s1._cur_size = size_add s._cur_size (k.length + v.length) ∧
          (s1._cur_size = s._cur_size + (k.length + v.length) →
            Rep s1 (xs ++ [(s.arena.length, k, v)]))) := by
  by_cases hc : size_add (size_add s._cur_size k.length) v.length > s._max_size
  · left
    refine ⟨hc, ?_⟩
    simp only [InsertNewNode, h.evict_while_eq, InsertNewNode_cond, Option.some.injEq,
      decide_eq_false_iff_not, hc, not_true_eq_false, if_false]
  · right
    refine ⟨not_lt.1 hc, ?_⟩
    have hev : evict_while (InsertNewNode_cond k v) s.arena.length s = some s := by
      rw [h.evict_while_eq]
      simp only [InsertNewNode_cond, Option.some.injEq, decide_eq_false_iff_not, hc,
        not_false_eq_true, if_true]
    have hrep : ∀ s1 : SimpleLRU, Linked s1 (xs ++ [(s.arena.length, k, v)]) →
        s1._lru_index = index_insert s._lru_index k s.arena.length →
        s1._max_size = s._max_size →
        s1._cur_size = size_add s._cur_size (k.length + v.length) →
        s1._cur_size = s._cur_size + (k.length + v.length) →
        Rep s1 (xs ++ [(s.arena.length, k, v)]) := by
      intro s1 hl hi hm hsz hexact
      refine Rep.snoc h k v hk ?_ hl hi hexact hm
      rw [← hexact, hsz, ← size_add_assoc]
      exact not_lt.1 hc
    simp only [InsertNewNode, hev]
    rcases List.eq_nil_or_concat' xs with hE | ⟨E0, t, hE⟩
    · subst hE
      have hhead : s._lru_head = none := h.head
      simp only [hhead]
      have hl : Linked
          { s with
            _cur_size := size_add s._cur_size (k.length + v.length),
            arena := s.arena ++ [{ key := k, value := v, prev := none, next := none }],
            _lru_head := some s.arena.length, _lru_tail := some s.arena.length,
            _lru_index := index_insert s._lru_index k s.arena.length }
          ([] ++ [(s.arena.length, k, v)]) := by
        refine ⟨⟨?_, trivial⟩, rfl, rfl, by simp⟩
        show (s.arena ++ _)[s.arena.length]? = _
        rw [List.getElem?_append_right (le_refl _)]
        simp
      exact ⟨_, rfl, hl, rfl, rfl, hrep _ hl rfl rfl rfl⟩
    · subst hE
      have hhead : ∃ hd, s._lru_head = some hd := by
        rw [h.head]
        cases E0 <;> exact ⟨_, rfl⟩
      obtain ⟨hd, hhead⟩ := hhead
      have htail : s._lru_tail = some t.1 := by rw [h.tail, lastOr_concat]
      have ht := Links_last h.links
      have htlt : t.1 < s.arena.length := Links_lt h.links t (by simp)
      simp only [hhead, htail, ht]
      have hl : Linked
          { s with
            _cur_size := size_add s._cur_size (k.length + v.length),
            arena := List.set
              (s.arena ++ [({ key := k, value := v, prev := some t.1, next := none } : lru_node)])
              t.1 ({ key := t.2.1, value := t.2.2, prev := lastOr E0 none,
                     next := some s.arena.length } : lru_node),
            _lru_head := some hd,
            _lru_tail := some s.arena.length,
            _lru_index := index_insert s._lru_index k s.arena.length }
          (E0 ++ [t] ++ [(s.arena.length, k, v)]) := by
        refine ⟨?_, ?_, ?_, h.linked.snoc_ptrs k v⟩
        · rw [Links_append]
          refine ⟨Links_set_next h.ptrs (Links_grow _ h.links) _, ?_, trivial⟩
          show ((s.arena ++ _).set t.1 _)[s.arena.length]? = _
          rw [List.getElem?_set_ne (Nat.ne_of_lt htlt), List.getElem?_append_right (le_refl _)]
          simp [lastOr_concat]
        · show some hd = _
          rw [← hhead, h.head]; simp [firstOr_append]
        · simp [lastOr_append]
      exact ⟨_, rfl, hl, rfl, rfl, hrep _ hl rfl rfl rfl⟩

/-! ## ChangeNode -/

/-- Moving the node of an item behind the tail changes neither the index nor the sizes. -/
theorem Rep.moveNodeToTail_frame {s : SimpleLRU} {l r : List Item} {x : Item}
    (h : Rep s (l ++ x :: r)) :
    ∃ s1, MoveNodeToTail s x.1 = some s1 ∧ Rep s1 (l ++ r ++ [x]) ∧
      s1._lru_index = s._lru_index ∧ s1._cur_size = s._cur_size ∧
      s1._max_size = s._max_size ∧ (r = [] → s1 = s) := by
  obtain ⟨s1, he, hrep, hm, -, hr⟩ := h.moveNodeToTail
  obtain ⟨s2, he2, -, -, -, hc, hi, -⟩ := MoveNodeToTail_spec h.links h.head h.tail h.ptrs
  have := he2.symm.trans he
  simp only [Option.some.injEq] at this
  subst this
  exact ⟨s2, he, hrep, hi, hc, hm, hr⟩

/-- Replacing the value of a key that is in the cache, in a state that satisfies the
invariants: the item moves to the end of the chain.  When the loop condition of line 79 is
then true, the call has no defined result (the first iteration of the loop has none).  When
it is false, nothing is evicted and the value is overwritten; the invariants hold again
unless the addition in line 85 has wrapped around. -/
theorem Rep.changeNode_cases {s : SimpleLRU} {l r : List Item} {x : Item}
    (h : Rep s (l ++ x :: r)) (v : String) :
    (size_add (size_sub s._cur_size x.2.2.length) v.length > s._max_size ∧
        ChangeNode s x.1 v = none) ∨
      (size_add (size_sub s._cur_size x.2.2.length) v.length ≤ s._max_size ∧
        ∃ s1, ChangeNode s x.1 v = some s1 ∧ Linked s1 (l ++ r ++ [(x.1, x.2.1, v)]) ∧
          s1._max_size = s._max_size ∧ s1._lru_index = s._lru_index ∧
          s1._cur_size = size_add (size_sub s._cur_size x.2.2.length) v.length ∧
          (s1._cur_size + x.2.2.length = s._cur_size + v.length →
            Rep s1 (l ++ r ++ [(x.1, x.2.1, v)]))) := by
  obtain ⟨s1, he1, hrep1, hi1, hc1, hm1, -⟩ := h.moveNodeToTail_frame
  have hx := Links_last hrep1.links
  have hxlt : x.1 < s1.arena.length := Links_lt hrep1.links x (by simp)
  have hcond : ChangeNode_cond x.1 v s1 =
      some (decide (size_add (size_sub s._cur_size x.2.2.length) v.length > s._max_size)) := by
    simp only [ChangeNode_cond, hx, Option.map_some', hc1, hm1]
  have hev : evict_while (ChangeNode_cond x.1 v) s1.arena.length s1 =
      if size_add (size_sub s._cur_size x.2.2.length) v.length > s._max_size then none
      else some s1 := by
    rw [hrep1.evict_while_eq, hcond]
    by_cases hc : size_add (size_sub s._cur_size x.2.2.length) v.length > s._max_size
    · simp [hc]
    · simp [hc]
  by_cases hc : size_add (size_sub s._cur_size x.2.2.length) v.length > s._max_size
  · left
    refine ⟨hc, ?_⟩
    simp only [ChangeNode, he1, hev, hc, if_true]
  · right
    refine ⟨not_lt.1 hc, ?_⟩
    have hE : ∀ y ∈ l ++ r, y.1 ≠ x.1 := by
      have := hrep1.ptrs
      rw [List.map_append, List.nodup_append] at this
      intro y hy e
      exact this.2.2 (List.mem_map.2 ⟨y, hy, rfl⟩) (by simp [e])
    simp only [ChangeNode, he1, hev, hc, if_false, hx]
    have hl : Linked
        { s1 with
          _cur_size := size_add (size_sub s1._cur_size x.2.2.length) v.length,
          arena := List.set s1.arena x.1
            ({ key := x.2.1, value := v, prev := lastOr (l ++ r) none, next := none } :
              lru_node) }
        (l ++ r ++ [(x.1, x.2.1, v)]) := by
      refine ⟨?_, ?_, ?_, ?_⟩
      · have hl2 := hrep1.links
        rw [Links_append] at hl2 ⊢
        refine ⟨Links_frame _ _ hE hl2.1, ?_, trivial⟩
        show (s1.arena.set x.1 _)[x.1]? = _
        rw [List.getElem?_set_self hxlt]
        rfl
      · show s1._lru_head = _
        rw [hrep1.head]; simp [firstOr_append]
      · show s1._lru_tail = _
        rw [hrep1.tail]; simp [lastOr_append]
      · simpa using hrep1.ptrs
    refine ⟨_, rfl, hl, hm1, hi1, by rw [hc1], ?_⟩
    intro hexact
    have hsz := hrep1.size
    simp only [List.map_append, List.map_cons, List.map_nil, cost_append, cost] at hsz
    have hcur : size_add (size_sub s1._cur_size x.2.2.length) v.length =
        cost ((l ++ r ++ [(x.1, x.2.1, v)]).map Prod.snd) := by
      have he : size_add (size_sub s1._cur_size x.2.2.length) v.length + x.2.2.length =
          s._cur_size + v.length := hexact
      simp only [List.map_append, List.map_cons, List.map_nil, cost_append, cost]
      omega
    refine ⟨hl.links, hl.head, hl.tail, hl.ptrs, ?_, ?_, hrep1.idxnd, hcur, ?_, hrep1.word⟩
    · simpa using hrep1.keys
    · intro k p
      show (k, p) ∈ s1._lru_index ↔ _
      rw [hrep1.idx]
      constructor
      · rintro ⟨v1, hv1⟩
        rcases List.mem_append.1 hv1 with hv1 | hv1
        · exact ⟨v1, List.mem_append_left _ hv1⟩
        · simp only [List.mem_singleton] at hv1
          exact ⟨v, by simp [← hv1]⟩
      · rintro ⟨v1, hv1⟩
        rcases List.mem_append.1 hv1 with hv1 | hv1
        · exact ⟨v1, List.mem_append_left _ hv1⟩
        · simp only [List.mem_singleton, Prod.mk.injEq] at hv1
          exact ⟨x.2.2, by simp [hv1.1, hv1.2.1]⟩
    · show size_add (size_sub s1._cur_size x.2.2.length) v.length ≤ s1._max_size
      rw [hc1, hm1]
      exact not_lt.1 hc

/-! ## The public operations on a state that satisfies the invariants -/

theorem Rep.keys_eq {s : SimpleLRU} {xs : List Item} (h : Rep s xs) :
    s.entries.map Prod.fst = xs.map (fun y => y.2.1) := by
  rw [h.entries_eq, List.map_map]; rfl

theorem Rep.split {s : SimpleLRU} {xs : List Item} (h : Rep s xs) {k : String}
    (hk : k ∈ s.entries.map Prod.fst) : ∃ l x r, xs = l ++ x :: r ∧ x.2.1 = k := by
  rw [h.keys_eq] at hk
  obtain ⟨x, hx, rfl⟩ := List.mem_map.1 hk
  obtain ⟨l, r, rfl⟩ := List.append_of_mem hx
  exact ⟨l, x, r, rfl, rfl⟩

theorem Rep.find_mid {s : SimpleLRU} {l r : List Item} {x : Item} (h : Rep s (l ++ x :: r)) :
    index_find s._lru_index x.2.1 = some x.1 :=
  h.find_some.2 ⟨x.2.2, by simp⟩

theorem Rep.find_absent {s : SimpleLRU} {xs : List Item} (h : Rep s xs) {k : String}
    (hk : k ∉ s.entries.map Prod.fst) : index_find s._lru_index k = none :=
  h.find_none (by rwa [← h.keys_eq])

theorem Rep.get_present {s : SimpleLRU} {l r : List Item} {x : Item} (h : Rep s (l ++ x :: r))
    (out : String) :
    ∃ s1, Get s x.2.1 out = some (s1, x.2.2, true) ∧ Rep s1 (l ++ r ++ [x]) ∧
      s1._max_size = s._max_size ∧ (r = [] → s1 = s) := by
  obtain ⟨s1, he, hrep, hm, -, hr⟩ := h.moveNodeToTail
  obtain ⟨n, hn, -, hv⟩ := Links_node h.links x (by simp)
  refine ⟨s1, ?_, hrep, hm, hr⟩
  simp only [Get, h.find_mid, hn, he, Option.map_some', hv]

theorem Rep.empty (max_size : Nat) (hmax : max_size < 2 ^ SIZE_BITS) :
    Rep (SimpleLRU.empty max_size) [] :=
  ⟨trivial, rfl, rfl, List.nodup_nil, List.nodup_nil, by simp [SimpleLRU.empty], List.nodup_nil,
    rfl, Nat.zero_le _, hmax⟩

/-- `Delete` of a key that is in the cache has no defined result: `DeleteNode` reads the node
of the key after destroying it. -/
theorem Rep.delete_present_undefined {s : SimpleLRU} {l r : List Item} {x : Item}
    (h : Rep s (l ++ x :: r)) : Delete s x.2.1 = none := by
  have hd := DeleteNode_undefined (l := l) (x := x) (r := r)
    (s := { s with _lru_index := index_erase s._lru_index x.2.1 }) h.links h.head h.ptrs
  simp only [Delete, h.find_mid, hd, Option.map_none']

/-- The state an insertion leaves when it returns: the chain with the new item behind it.
The invariants hold again when the capacity is below `2 ^ 63`, so that the additions on
`_cur_size` cannot wrap around. -/
theorem Rep.insert_result {s s1 : SimpleLRU} {xs : List Item} (h : Rep s xs) (k v : String)
    (hk : k ∉ s.entries.map Prod.fst) (he : InsertNewNode s k v = some s1) :
    Linked s1 (xs ++ [(s.arena.length, k, v)]) ∧ s1._max_size = s._max_size ∧
      size_add (size_add s._cur_size k.length) v.length ≤ s._max_size ∧
      (2 * s._max_size < 2 ^ SIZE_BITS → k.length + v.length ≤ s._max_size →
        Rep s1 (xs ++ [(s.arena.length, k, v)])) := by
  rcases h.insertNewNode_cases k v (by rwa [← h.keys_eq]) with ⟨-, hn⟩ | ⟨hc, s2, he2, hl, hm, hsz, hr⟩
  · rw [hn] at he; cases he
  · have := he2.symm.trans he
    simp only [Option.some.injEq] at this
    subst this
    refine ⟨hl, hm, hc, fun hsmall hfit => hr ?_⟩
    rw [hsz]
    have hcap := h.cap
    exact size_add_eq (by omega)

/-- The state an update leaves when it returns: the chain with the item of the key moved to
the end and carrying the new value.  The invariants hold again when the capacity is below
`2 ^ 63`. -/
theorem Rep.change_result {s s1 : SimpleLRU} {l r : List Item} {x : Item}
    (h : Rep s (l ++ x :: r)) (v : String) (he : ChangeNode s x.1 v = some s1) :
    Linked s1 (l ++ r ++ [(x.1, x.2.1, v)]) ∧ s1._max_size = s._max_size ∧
      s1._lru_index = s._lru_index ∧
      size_add (size_sub s._cur_size x.2.2.length) v.length ≤ s._max_size ∧
      (2 * s._max_size < 2 ^ SIZE_BITS → x.2.1.length + v.length ≤ s._max_size →
        Rep s1 (l ++ r ++ [(x.1, x.2.1, v)])) := by
  rcases h.changeNode_cases v with ⟨-, hn⟩ | ⟨hc, s2, he2, hl, hm, hi, hsz, hr⟩
  · rw [hn] at he; cases he
  · have := he2.symm.trans he
    simp only [Option.some.injEq] at this
    subst this
    refine ⟨hl, hm, hi, hc, fun hsmall hfit => hr ?_⟩
    rw [hsz]
    have hcap := h.cap
    have hw := h.word
    have hcost := h.size
    rw [cost_mid] at hcost
    rw [size_sub_eq (by omega) (by omega), size_add_eq (by omega)]
    omega

/-- An insertion that has to evict has no defined result: the first iteration of the
eviction loop reads the head node after destroying it. -/
theorem Rep.insert_evicting_undefined {s : SimpleLRU} {xs : List Item} (h : Rep s xs)
    (k v : String) (hk : k ∉ s.entries.map Prod.fst)
    (hfit : k.length + v.length ≤ s._max_size)
    (hfull : s._cur_size + (k.length + v.length) > s._max_size)
    (hsmall : 2 * s._max_size < 2 ^ SIZE_BITS) :
    Put s k v = none ∧ PutIfAbsent s k v = none := by
  have hcap := h.cap
  have hc : size_add (size_add s._cur_size k.length) v.length > s._max_size := by
    rw [size_add_assoc, size_add_eq (by omega)]
    exact hfull
  rcases h.insertNewNode_cases k v (by rwa [← h.keys_eq]) with ⟨-, hn⟩ | ⟨hle, -⟩
  · constructor
    · simp only [Put, not_lt.2 hfit, if_false, h.find_absent hk, hn, Option.map_none']
    · simp only [PutIfAbsent, not_lt.2 hfit, if_false, h.find_absent hk, hn, Option.map_none']
  · omega

/-- An update that has to evict has no defined result, for the same reason. -/
theorem Rep.update_evicting_undefined {s : SimpleLRU} {l r : List Item} {x : Item}
    (h : Rep s (l ++ x :: r)) (v : String)
    (hfit : x.2.1.length + v.length ≤ s._max_size)
    (hfull : s._cur_size + v.length > s._max_size + x.2.2.length)
    (hsmall : 2 * s._max_size < 2 ^ SIZE_BITS) :
    Put s x.2.1 v = none ∧ Set s x.2.1 v = none := by
  have hcap := h.cap
  have hw := h.word
  have hcost := h.size
  rw [cost_mid] at hcost
  have hc : size_add (size_sub s._cur_size x.2.2.length) v.length > s._max_size := by
    rw [size_sub_eq (by omega) (by omega), size_add_eq (by omega)]
    omega
  rcases h.changeNode_cases v with ⟨-, hn⟩ | ⟨hle, -⟩
  · constructor
    · simp only [Put, not_lt.2 hfit, if_false, h.find_mid, hn, Option.map_none']
    · simp only [Set, not_lt.2 hfit, if_false, h.find_mid, hn, Option.map_none']
  · omega

theorem Put_true_fits {s s1 : SimpleLRU} {k v : String} (h : Put s k v = some (s1, true)) :
    k.length + v.length ≤ s._max_size := by
  by_contra hbig
  simp only [Put, not_le.1 hbig, if_true, Option.some.injEq, Prod.mk.injEq] at h
  exact absurd h.2 (by decide)

theorem Set_true_fits {s s1 : SimpleLRU} {k v : String} (h : Set s k v = some (s1, true)) :
    k.length + v.length ≤ s._max_size := by
  by_contra hbig
  simp only [Set, not_le.1 hbig, if_true, Option.some.injEq, Prod.mk.injEq] at h
  exact absurd h.2 (by decide)

theorem Rep.set_true_present {s s1 : SimpleLRU} {xs : List Item} (h : Rep s xs) {k v : String}
    (hs : Set s k v = some (s1, true)) : k ∈ s.entries.map Prod.fst := by
  by_contra hk
  have hfit := Set_true_fits hs
  simp only [Set, not_lt.2 hfit, if_false, h.find_absent hk, Option.some.injEq,
    Prod.mk.injEq] at hs
  exact absurd hs.2 (by decide)

theorem Rep.get_true_present {s s1 : SimpleLRU} {xs : List Item} (h : Rep s xs)
    {k out val : String} (hg : Get s k out = some (s1, val, true)) :
    k ∈ s.entries.map Prod.fst := by
  by_contra hk
  simp only [Get, h.find_absent hk, Option.some.injEq, Prod.mk.injEq] at hg
  exact absurd hg.2.2 (by decide)

/-- A `Put` that returns `true` leaves the item of its key, with the value written, at the
end of the chain. -/
theorem Rep.put_true_tail {s s1 : SimpleLRU} {xs : List Item} (h : Rep s xs) {k v : String}
    (hp : Put s k v = some (s1, true)) : ∃ ys p, Linked s1 (ys ++ [(p, k, v)]) := by
  have hfit := Put_true_fits hp
  by_cases hk : k ∈ s.entries.map Prod.fst
  · obtain ⟨l, x, r, rfl, rfl⟩ := h.split hk
    simp only [Put, not_lt.2 hfit, if_false, h.find_mid, Option.map_eq_some', Prod.mk.injEq,
      and_true, exists_eq_right] at hp
    exact ⟨_, _, (h.change_result v hp).1⟩
  · simp only [Put, not_lt.2 hfit, if_false, h.find_absent hk, Option.map_eq_some',
      Prod.mk.injEq, and_true, exists_eq_right] at hp
    exact ⟨_, _, (h.insert_result k v hk hp).1⟩

/-- A `Set` that returns `true` leaves the item of its key, with the value written, at the
end of the chain. -/
theorem Rep.set_true_tail {s s1 : SimpleLRU} {xs : List Item} (h : Rep s xs) {k v : String}
    (hs : Set s k v = some (s1, true)) : ∃ ys p, Linked s1 (ys ++ [(p, k, v)]) := by
  have hfit := Set_true_fits hs
  obtain ⟨l, x, r, rfl, rfl⟩ := h.split (h.set_true_present hs)
  simp only [Set, not_lt.2 hfit, if_false, h.find_mid, Option.map_eq_some', Prod.mk.injEq,
    and_true, exists_eq_right] at hs
  exact ⟨_, _, (h.change_result v hs).1⟩

/-- Whenever an operation returns on a state that satisfies the invariants, the state it
leaves satisfies them again, with the same capacity.  The capacity is below `2 ^ 63`, so that
the additions on `_cur_size` cannot wrap around. -/
theorem Inv_step {s : SimpleLRU} (h : Inv s) (hsmall : 2 * s._max_size < 2 ^ SIZE_BITS)
    (op : Op) {r : SimpleLRU × Bool} (he : step s op = some r) :
    Inv r.1 ∧ r.1._max_size = s._max_size := by
  obtain ⟨xs, hrep⟩ := h
  have hsame : ∀ b, some (s, b) = some r → Inv r.1 ∧ r.1._max_size = s._max_size := by
    intro b hb
    cases hb
    exact ⟨⟨_, hrep⟩, rfl⟩
  have hins : ∀ k v, k ∉ s.entries.map Prod.fst → k.length + v.length ≤ s._max_size →
      (InsertNewNode s k v).map (fun s1 => (s1, true)) = some r →
      Inv r.1 ∧ r.1._max_size = s._max_size := by
    intro k v hk hfit hr
    obtain ⟨s1, hs1, rfl⟩ := Option.map_eq_some'.1 hr
    obtain ⟨-, hm, -, hrep1⟩ := hrep.insert_result k v hk hs1
    exact ⟨⟨_, hrep1 hsmall hfit⟩, hm⟩
  have hchg : ∀ (l r0 : List Item) (x : Item) (v : String), xs = l ++ x :: r0 →
      x.2.1.length + v.length ≤ s._max_size →
      (ChangeNode s x.1 v).map (fun s1 => (s1, true)) = some r →
      Inv r.1 ∧ r.1._max_size = s._max_size := by
    intro l r0 x v hxs hfit hr
    subst hxs
    obtain ⟨s1, hs1, rfl⟩ := Option.map_eq_some'.1 hr
    obtain ⟨-, hm, -, -, hrep1⟩ := hrep.change_result v hs1
    exact ⟨⟨_, hrep1 hsmall hfit⟩, hm⟩
  cases op with
  | put k v =>
    by_cases hfit : k.length + v.length ≤ s._max_size
    · by_cases hk : k ∈ s.entries.map Prod.fst
      · obtain ⟨l, x, r0, hxs, rfl⟩ := hrep.split hk
        have hfind : index_find s._lru_index x.2.1 = some x.1 := by
          subst hxs; exact hrep.find_mid
        simp only [step, Put, not_lt.2 hfit, if_false, hfind] at he
        exact hchg l r0 x v hxs hfit he
      · simp only [step, Put, not_lt.2 hfit, if_false, hrep.find_absent hk] at he
        exact hins k v hk hfit he
    · simp only [step, Put, not_le.1 hfit, if_true] at he
      exact hsame false he
  | putIfAbsent k v =>
    by_cases hfit : k.length + v.length ≤ s._max_size
    · by_cases hk : k ∈ s.entries.map Prod.fst
      · obtain ⟨l, x, r0, hxs, rfl⟩ := hrep.split hk
        have hfind : index_find s._lru_index x.2.1 = some x.1 := by
          subst hxs; exact hrep.find_mid
        simp only [step, PutIfAbsent, not_lt.2 hfit, if_false, hfind] at he
        exact hsame false he
      · simp only [step, PutIfAbsent, not_lt.2 hfit, if_false, hrep.find_absent hk] at he
        exact hins k v hk hfit he
    · simp only [step, PutIfAbsent, not_le.1 hfit, if_true] at he
      exact hsame false he
  | set k v =>
    by_cases hfit : k.length + v.length ≤ s._max_size
    · by_cases hk : k ∈ s.entries.map Prod.fst
      · obtain ⟨l, x, r0, hxs, rfl⟩ := hrep.split hk
        have hfind : index_find s._lru_index x.2.1 = some x.1 := by
          subst hxs; exact hrep.find_mid
        simp only [step, Set, not_lt.2 hfit, if_false, hfind] at he
        exact hchg l r0 x v hxs hfit he
      · simp only [step, Set, not_lt.2 hfit, if_false, hrep.find_absent hk] at he
        exact hsame false he
    · simp only [step, Set, not_le.1 hfit, if_true] at he
      exact hsame false he
  | delete k =>
    by_cases hk : k ∈ s.entries.map Prod.fst
    · obtain ⟨l, x, r0, hxs, rfl⟩ := hrep.split hk
      subst hxs
      simp only [step, hrep.delete_present_undefined] at he
      cases he
    · simp only [step, Delete, hrep.find_absent hk] at he
      exact hsame false he
  | get k =>
    by_cases hk : k ∈ s.entries.map Prod.fst
    · obtain ⟨l, x, r0, hxs, rfl⟩ := hrep.split hk
      subst hxs
      obtain ⟨s1, hg, hr, hm, -⟩ := hrep.get_present ""
      simp only [step, hg, Option.map_some', Option.some.injEq] at he
      subst he
      exact ⟨⟨_, hr⟩, hm⟩
    · simp only [step, Get, hrep.find_absent hk, Option.map_some'] at he
      exact hsame false he

/-- Whenever a sequence of operations returns on a state that satisfies the invariants, the
state it leaves satisfies them again. -/
theorem Inv_run {s : SimpleLRU} (h : Inv s) (hsmall : 2 * s._max_size < 2 ^ SIZE_BITS)
    (ops : List Op) {s1 : SimpleLRU} (he : run s ops = some s1) :
    Inv s1 ∧ s1._max_size = s._max_size := by
  induction ops generalizing s with
  | nil =>
    simp only [run, Option.some.injEq] at he
    subst he
    exact ⟨h, rfl⟩
  | cons op ops ih =>
    simp only [run, Option.bind_eq_some] at he
    obtain ⟨r, hr, he1⟩ := he
    obtain ⟨hinv, hm⟩ := Inv_step h hsmall op hr
    obtain ⟨hinv1, hm1⟩ := ih hinv (by rw [hm]; exact hsmall) he1
    exact ⟨hinv1, hm1.trans hm⟩

/-- A state reached from the empty cache by a sequence of operations that returns satisfies
the invariants. -/
theorem Inv_of_run (max_size : Nat) (hsmall : 2 * max_size < 2 ^ SIZE_BITS) (ops : List Op)
    (c : SimpleLRU) (he : run (SimpleLRU.empty max_size) ops = some c) : Inv c :=
  (Inv_run ⟨[], Rep.empty max_size (by omega)⟩ hsmall ops he).1

theorem cache_ab_Inv : Inv cache_ab :=
  Inv_of_run 10 (by decide) [.put "a" "1", .put "bb" "22"] cache_ab (by decide)

theorem cache_abc_Inv : Inv cache_abc :=
  Inv_of_run 10 (by decide) [.put "a" "1", .put "bb" "22", .put "c" "3"] cache_abc (by decide)

theorem cache_xy_Inv : Inv cache_xy :=
  Inv_of_run 5 (by decide) [.put "xy" "z"] cache_xy (by decide)

/-! ## The values of a state that satisfies the invariants -/

theorem lookup_eq_some_of_nodup {es : List (String × String)} (hnd : (es.map Prod.fst).Nodup)
    (k v : String) : List.lookup k es = some v ↔ (k, v) ∈ es := by
  induction es with
  | nil => simp [List.lookup]
  | cons e es ih =>
    obtain ⟨k1, v1⟩ := e
    simp only [List.map_cons, List.nodup_cons] at hnd
    by_cases hk : k = k1
    · subst hk
      simp only [List.lookup, beq_self_eq_true, List.mem_cons, Prod.mk.injEq, true_and]
      constructor
      · intro h; left; exact (Option.some.inj h).symm
      · rintro (h | h)
        · rw [h]
        · exact absurd (List.mem_map_of_mem Prod.fst h) hnd.1
    · have hb : (k == k1) = false := by simpa using hk
      simp only [List.lookup, hb, List.mem_cons, Prod.mk.injEq, hk, false_and, false_or]
      exact ih hnd.2

theorem lookup_none_iff {es : List (String × String)} (k : String) :
    List.lookup k es = none ↔ k ∉ es.map Prod.fst := by
  induction es with
  | nil => simp [List.lookup]
  | cons e es ih =>
    obtain ⟨k1, v1⟩ := e
    by_cases hk : k = k1
    · subst hk; simp [List.lookup]
    · have hb : (k == k1) = false := by simpa using hk
      simp only [List.lookup, hb, List.map_cons, List.mem_cons, hk, false_or]
      exact ih

theorem Rep.entries_nodup {s : SimpleLRU} {xs : List Item} (h : Rep s xs) :
    (s.entries.map Prod.fst).Nodup := by
  rw [h.keys_eq]; exact h.keys

theorem Rep.value_of_some {s : SimpleLRU} {xs : List Item} (h : Rep s xs) (k v : String) :
    s.value_of k = some v ↔ (k, v) ∈ s.entries :=
  lookup_eq_some_of_nodup h.entries_nodup k v

theorem value_of_none (s : SimpleLRU) (k : String) :
    s.value_of k = none ↔ k ∉ s.entries.map Prod.fst :=
  lookup_none_iff k

/-- In a chain `l ++ x :: r` without duplicate keys, the value of the key of `x` is the value
of `x`. -/
theorem Rep.value_of_mid {s : SimpleLRU} {l r : List Item} {x : Item} (h : Rep s (l ++ x :: r)) :
    s.value_of x.2.1 = some x.2.2 := by
  rw [h.value_of_some, h.entries_eq]
  exact List.mem_map.2 ⟨x, by simp, rfl⟩

/-- The value of a key is decided by membership in the chain: two states whose chains have
the same members with that key give it the same value. -/
theorem Rep.value_of_congr {s s1 : SimpleLRU} {xs ys : List Item} (h : Rep s xs) (h1 : Rep s1 ys)
    (k : String) (hiff : ∀ v, (k, v) ∈ s1.entries ↔ (k, v) ∈ s.entries) :
    s1.value_of k = s.value_of k := by
  cases hv : s.value_of k with
  | none =>
    rw [value_of_none]
    rw [value_of_none] at hv
    intro hmem
    obtain ⟨⟨k1, v⟩, he, rfl⟩ := List.mem_map.1 hmem
    exact hv (List.mem_map.2 ⟨_, (hiff v).1 he, rfl⟩)
  | some v =>
    rw [h1.value_of_some]
    rw [h.value_of_some] at hv
    exact (hiff v).2 hv

/-! ## What `Get` leaves of the chain -/

/-- `Get` of a key that is in the cache changes neither the index nor the sizes. -/
theorem Rep.get_present_frame {s : SimpleLRU} {l r : List Item} {x : Item}
    (h : Rep s (l ++ x :: r)) (out : String) :
    ∃ s1, Get s x.2.1 out = some (s1, x.2.2, true) ∧ Rep s1 (l ++ r ++ [x]) ∧
      s1._lru_index = s._lru_index ∧ s1._cur_size = s._cur_size ∧
      s1._max_size = s._max_size ∧ (r = [] → s1 = s) := by
  obtain ⟨s1, he, hrep, hm, hr⟩ := h.get_present out
  obtain ⟨s2, he2, -, -, -, hc, hi, -⟩ := MoveNodeToTail_spec h.links h.head h.tail h.ptrs
  obtain ⟨n, hn, -, hv⟩ := Links_node h.links x (by simp)
  have hg : Get s x.2.1 out = some (s2, x.2.2, true) := by
    simp only [Get, h.find_mid, hn, he2, Option.map_some', hv]
  have := hg.symm.trans he
  simp only [Option.some.injEq, Prod.mk.injEq, and_true] at this
  subst this
  exact ⟨s2, he, hrep, hi, hc, hm, hr⟩

/-- The last key of a chain without duplicate keys: if it is the key of `x` in
`l ++ x :: r`, nothing follows `x`. -/
theorem Rep.last_key {s : SimpleLRU} {l r : List Item} {x : Item} (h : Rep s (l ++ x :: r))
    (hlast : s.entries.getLast?.map Prod.fst = some x.2.1) : r = [] := by
  rcases List.eq_nil_or_concat' r with hr | ⟨r0, t, hr⟩
  · exact hr
  · subst hr
    rw [h.entries_eq] at hlast
    have : l ++ x :: (r0 ++ [t]) = (l ++ x :: r0) ++ [t] := by simp
    rw [this, List.map_append] at hlast
    simp only [List.map_cons, List.map_nil, List.getLast?_append, List.getLast?_singleton,
      Option.map_or, Option.map_some', Option.or_some, Option.some.injEq] at hlast
    exact absurd hlast ((keys_mid h.keys).1 t (by simp))

/-! # The properties of the specification

Four properties hold of the code as it stands.  C4, C13 and C16 are about paths of the code
that never call `DeleteNode`; C6 is about calls that return `true`, and in a state that
satisfies the invariants a call that reaches `DeleteNode` has no defined result.  The other
sixteen fail for one and the same reason: `DeleteNode` reads `tmp.key.size()` and `tmp.value.size()`
(line 31) after the assignment in line 26 or 28 has destroyed `tmp` (`DeleteNode_undefined`),
so `Delete` of a present key and every insertion or update that has to evict have no defined
result (`Rep.delete_present_undefined`, `Rep.insert_evicting_undefined`,
`Rep.update_evicting_undefined`).  For each of the sixteen the code is evaluated at an input
at which the property promises a result. -/

/-- C1: size accounting.  The property promises `_cur_size = cost entries` after every call of
every sequence from the empty cache.  With capacity 10, the calls `Put("a","1")`,
`Put("bb","22")`, `Put("c","3")` leave the cache a/1, bb/22, c/3 with `_cur_size = 8`, the
cost of its entries; the fourth call `Delete("a")` has no defined result, since `DeleteNode`
takes the amount it subtracts from `_cur_size` from a node it has destroyed. -/
theorem C1_size_accounting_defect :
    run (SimpleLRU.empty 10) [.put "a" "1", .put "bb" "22", .put "c" "3"] = some cache_abc ∧
      cache_abc._cur_size = cost cache_abc.entries ∧
      Delete cache_abc "a" = none ∧
      run (SimpleLRU.empty 10) [.put "a" "1", .put "bb" "22", .put "c" "3", .delete "a"] =
        none := by
  decide

/-- C2: capacity.  The property promises `_cur_size ≤ _max_size` after every call of every
sequence from the empty cache.  With capacity 4, `Put("ab","cd")` fills the cache exactly;
the second call `Put("e","f")` has to evict and has no defined result, so no value of
`_cur_size` is determined after it. -/
theorem C2_capacity_defect :
    (run (SimpleLRU.empty 4) [.put "ab" "cd"]).map (fun c => (c._cur_size, c._max_size)) =
        some (4, 4) ∧
      run (SimpleLRU.empty 4) [.put "ab" "cd", .put "e" "f"] = none := by
  decide

/-- C3: index and chain agree.  The property promises the agreement after every call of
every sequence from the empty cache.  With capacity 10, after `Put("a","1")` and
`Put("bb","22")` the third call `Delete("a")` has no defined result, and so has the sequence
continued by `Put("c","3")`: no index and no chain are determined after them. -/
theorem C3_index_chain_agreement_defect :
    run (SimpleLRU.empty 10) [.put "a" "1", .put "bb" "22"] = some cache_ab ∧
      cache_ab._lru_index.map Prod.fst = ["bb", "a"] ∧
      cache_ab.entries.map Prod.fst = ["a", "bb"] ∧
      run (SimpleLRU.empty 10) [.put "a" "1", .put "bb" "22", .delete "a"] = none ∧
      run (SimpleLRU.empty 10) [.put "a" "1", .put "bb" "22", .delete "a", .put "c" "3"] =
        none := by
  decide

/-- C4: oversized rejection.  In every state, for every key and value with
`len(key) + len(value) > _max_size`, each of Put, Set and PutIfAbsent returns `false` and
leaves the state (entries, order, index, `_cur_size`, every node) exactly as it was, whether
or not the key is present. -/
theorem C4_oversized_rejected (s : SimpleLRU) (key value : String)
    (hbig : key.length + value.length > s._max_size) :
    Put s key value = some (s, false) ∧ Set s key value = some (s, false) ∧
      PutIfAbsent s key value = some (s, false) := by
  simp only [Put, Set, PutIfAbsent, hbig, if_true, and_self]

/-- An instance of C4: a value of nine bytes on the cache of capacity 10, for a key that is
present and for one that is not. -/
theorem C4_oversized_rejected_witness :
    "bb".length + "123456789".length > cache_ab._max_size ∧
      "zz".length + "123456789".length > cache_ab._max_size ∧
      (Put cache_ab "bb" "123456789" = some (cache_ab, false) ∧
        Set cache_ab "bb" "123456789" = some (cache_ab, false) ∧
        PutIfAbsent cache_ab "bb" "123456789" = some (cache_ab, false)) ∧
      (Put cache_ab "zz" "123456789" = some (cache_ab, false) ∧
        Set cache_ab "zz" "123456789" = some (cache_ab, false) ∧
        PutIfAbsent cache_ab "zz" "123456789" = some (cache_ab, false)) :=
  ⟨by decide, by decide, C4_oversized_rejected cache_ab "bb" "123456789" (by decide),
    C4_oversized_rejected cache_ab "zz" "123456789" (by decide)⟩

/-- C5: minimal eviction on insert.  The property promises that `Put(k, v)` and
`PutIfAbsent(k, v)` of an absent key that fits remove the shortest sufficient prefix of the
recency order and append `(k, v)`.  In its two scenarios, capacity 10 with a/1, bb/22 and
the insertion of ccc/333 (promised: bb, ccc), and capacity 4 with ab/cd and the insertion of
e/f (promised: e), the insertion has no defined result: the first iteration of the eviction
loop calls `DeleteNode` on the head. -/
theorem C5_minimal_eviction_on_insert_defect :
    (Inv cache_ab ∧ "ccc" ∉ cache_ab.entries.map Prod.fst ∧
        "ccc".length + "333".length ≤ cache_ab._max_size) ∧
      insert_reference 10 cache_ab.entries "ccc" "333" = [("bb", "22"), ("ccc", "333")] ∧
      Put cache_ab "ccc" "333" = none ∧ PutIfAbsent cache_ab "ccc" "333" = none ∧
      insert_reference 4 [("ab", "cd")] "e" "f" = [("e", "f")] ∧
      (run (SimpleLRU.empty 4) [.put "ab" "cd"]).map (fun c => c.entries) =
        some [("ab", "cd")] ∧
      (run (SimpleLRU.empty 4) [.put "ab" "cd"]).bind (fun c => Put c "e" "f") = none ∧
      (run (SimpleLRU.empty 4) [.put "ab" "cd"]).bind (fun c => PutIfAbsent c "e" "f") =
        none :=
  ⟨⟨cache_ab_Inv, by decide, by decide⟩, by decide, by decide, by decide, by decide, by decide,
    by decide, by decide⟩

/-- C6: most recently used after access.  In a state satisfying the invariants, after a
`Get(k)` that returns `true`, and after a `Put(k, v)` or `Set(k, v)` that returns `true`, the
node `_lru_tail` points to carries the key `k` (with the value read, respectively written), and
it is the last entry of the recency chain. -/
theorem C6_accessed_key_is_tail (s : SimpleLRU) (k v out : String) (hinv : Inv s) :
    (∀ s1 val, Get s k out = some (s1, val, true) →
        s1.tail_entry = some (k, val) ∧ s1.entries.getLast? = some (k, val)) ∧
      (∀ s1, Put s k v = some (s1, true) →
        s1.tail_entry = some (k, v) ∧ s1.entries.getLast? = some (k, v)) ∧
      (∀ s1, Set s k v = some (s1, true) →
        s1.tail_entry = some (k, v) ∧ s1.entries.getLast? = some (k, v)) := by
  obtain ⟨xs, h⟩ := hinv
  refine ⟨?_, ?_, ?_⟩
  · intro s1 val hg
    obtain ⟨l, x, r, rfl, rfl⟩ := h.split (h.get_true_present hg)
    obtain ⟨s2, he, hr, -⟩ := h.get_present out
    rw [he] at hg
    simp only [Option.some.injEq, Prod.mk.injEq, and_true] at hg
    obtain ⟨rfl, rfl⟩ := hg
    exact hr.linked.tail_is
  · intro s1 hp
    obtain ⟨ys, p, hl⟩ := h.put_true_tail hp
    exact hl.tail_is
  · intro s1 hs
    obtain ⟨ys, p, hl⟩ := h.set_true_tail hs
    exact hl.tail_is

/-- An instance of C6: the key `a` of the cache holding a/1 and bb/22. -/
theorem C6_accessed_key_is_tail_witness :
    Inv cache_ab ∧
      ((Get cache_ab "a" "").map Prod.snd = some ("1", true) ∧
        (Put cache_ab "a" "xyz").map Prod.snd = some true ∧
        (Set cache_ab "a" "xyz").map Prod.snd = some true) ∧
      ((∀ s1 val, Get cache_ab "a" "" = some (s1, val, true) →
          s1.tail_entry = some ("a", val) ∧ s1.entries.getLast? = some ("a", val)) ∧
        (∀ s1, Put cache_ab "a" "xyz" = some (s1, true) →
          s1.tail_entry = some ("a", "xyz") ∧ s1.entries.getLast? = some ("a", "xyz")) ∧
        (∀ s1, Set cache_ab "a" "xyz" = some (s1, true) →
          s1.tail_entry = some ("a", "xyz") ∧ s1.entries.getLast? = some ("a", "xyz"))) :=
  ⟨cache_ab_Inv, by decide, C6_accessed_key_is_tail cache_ab "a" "xyz" "" cache_ab_Inv⟩

/-- C8: Put/Get round trip.  The property promises that `Put(k, v)` returns `true` whenever
`len(k) + len(v) ≤ _max_size`.  On the cache a/1, bb/22 of capacity 10, `Put("ccc","333")`
fits and has no defined result, and so has the round trip; the same holds of the update
`Put("bb","123456")` on a/1, bb/22, c/3. -/
theorem C8_put_get_round_trip_defect :
    (Inv cache_ab ∧ "ccc".length + "333".length ≤ cache_ab._max_size) ∧
      (Put cache_ab "ccc" "333").map Prod.snd = none ∧
      (Put cache_ab "ccc" "333").bind (fun r => Get r.1 "ccc" "") = none ∧
      (Inv cache_abc ∧ "bb".length + "123456".length ≤ cache_abc._max_size) ∧
      (Put cache_abc "bb" "123456").bind (fun r => Get r.1 "bb" "") = none :=
  ⟨⟨cache_ab_Inv, by decide⟩, by decide, by decide, ⟨cache_abc_Inv, by decide⟩, by decide⟩

/-- C9: result of PutIfAbsent.  The property promises that `PutIfAbsent(k, v)` returns `true`
when `k` is absent and the entry fits.  On the cache a/1, bb/22 of capacity 10 the key `ccc`
is absent and ccc/333 fits, and `PutIfAbsent("ccc","333")` has no defined result. -/
theorem C9_put_if_absent_result_defect :
    Inv cache_ab ∧ "ccc" ∉ cache_ab.entries.map Prod.fst ∧
      "ccc".length + "333".length ≤ cache_ab._max_size ∧
      (PutIfAbsent cache_ab "ccc" "333").map Prod.snd = none :=
  ⟨cache_ab_Inv, by decide, by decide, by decide⟩

/-- C10: PutIfAbsent is idempotent.  The property promises a state after
`PutIfAbsent(k, v1)`, `PutIfAbsent(k, v2)` for an absent `k` whose entry fits.  On the cache
a/1, bb/22 of capacity 10, with `k = "ccc"`, `v1 = "333"` and `v2 = "x"`, the first call has
no defined result, and so has the pair of calls. -/
theorem C10_put_if_absent_idempotent_defect :
    Inv cache_ab ∧ "ccc" ∉ cache_ab.entries.map Prod.fst ∧
      "ccc".length + "333".length ≤ cache_ab._max_size ∧
      (PutIfAbsent cache_ab "ccc" "333").bind (fun r => PutIfAbsent r.1 "ccc" "x") = none ∧
      (PutIfAbsent cache_ab "ccc" "333").map (fun r => r.1.value_of "ccc") = none :=
  ⟨cache_ab_Inv, by decide, by decide, by decide, by decide⟩

/-- C11: result of Set.  The property promises that `Set(k, v)` returns `true` when `k` is
present and the entry fits.  On the cache a/1, bb/22, c/3 of capacity 10 the key `bb` is
present and bb/123456 fits, and `Set("bb","123456")` has no defined result. -/
theorem C11_set_result_defect :
    Inv cache_abc ∧ "bb" ∈ cache_abc.entries.map Prod.fst ∧
      "bb".length + "123456".length ≤ cache_abc._max_size ∧
      (Set cache_abc "bb" "123456").map Prod.snd = none :=
  ⟨cache_abc_Inv, by decide, by decide, by decide⟩

/-- C12: Delete.  The property promises that `Delete(k)` of a present key returns `true` and
leaves the chain without the entry of `k`, with `_cur_size` decreased by its cost.  `Delete`
has no defined result for the head, the interior entry and the tail of the cache
a/1, bb/22, c/3, and for the sole entry of the cache xy/z. -/
theorem C12_delete_defect :
    (Inv cache_abc ∧ Inv cache_xy) ∧
      cache_abc.entries = [("a", "1"), ("bb", "22"), ("c", "3")] ∧
      Delete cache_abc "a" = none ∧ Delete cache_abc "bb" = none ∧
      Delete cache_abc "c" = none ∧
      cache_xy.entries = [("xy", "z")] ∧ Delete cache_xy "xy" = none :=
  ⟨⟨cache_abc_Inv, cache_xy_Inv⟩, by decide, by decide, by decide, by decide, by decide,
    by decide⟩

/-- C13: result of Get.  In a state satisfying the invariants, `Get(k)` returns, and it
returns `true` exactly when `k` is in the cache; then the output string holds the value the
cache has for `k`.  When `k` is absent it returns `false`, the output string is as the caller
passed it, and the state is the one it found. -/
theorem C13_get_result (s : SimpleLRU) (k out : String) (hinv : Inv s) :
    ∃ s1 val b, Get s k out = some (s1, val, b) ∧ (b = true ↔ k ∈ s.entries.map Prod.fst) ∧
      (k ∈ s.entries.map Prod.fst → s.value_of k = some val) ∧
      (k ∉ s.entries.map Prod.fst → b = false ∧ val = out ∧ s1 = s) := by
  obtain ⟨xs, h⟩ := hinv
  by_cases hk : k ∈ s.entries.map Prod.fst
  · obtain ⟨l, x, r, rfl, rfl⟩ := h.split hk
    obtain ⟨s1, he, -⟩ := h.get_present out
    exact ⟨s1, x.2.2, true, he, by simp [hk], fun _ => h.value_of_mid, fun hk2 => absurd hk hk2⟩
  · refine ⟨s, out, false, ?_, by simp [hk], fun hk2 => absurd hk2 hk, fun _ => ⟨rfl, rfl, rfl⟩⟩
    simp only [Get, h.find_absent hk]

/-- An instance of C13: the scenario of the specification, `Get("no")` on the cache holding
xy/z, with the result of `Get("xy")`. -/
theorem C13_get_result_witness :
    Inv cache_xy ∧
      (∃ s1 val b, Get cache_xy "no" "out" = some (s1, val, b) ∧
        (b = true ↔ "no" ∈ cache_xy.entries.map Prod.fst) ∧
        ("no" ∈ cache_xy.entries.map Prod.fst → cache_xy.value_of "no" = some val) ∧
        ("no" ∉ cache_xy.entries.map Prod.fst → b = false ∧ val = "out" ∧ s1 = cache_xy)) ∧
      Get cache_xy "no" "out" = some (cache_xy, "out", false) ∧
      (Get cache_xy "xy" "out").map Prod.snd = some ("z", true) :=
  ⟨cache_xy_Inv, C13_get_result cache_xy "no" "out" cache_xy_Inv, by decide, by decide⟩

/-- C14: no self-eviction on update.  The property promises that `Put(k, v)` and `Set(k, v)`
of a present key whose new entry fits leave the cache with the entry of `k`.  On the cache
a/1, bb/22, c/3 of capacity 10 the update of `bb` to `123456` has to evict `a`; it has no
defined result, so the cache is not determined to hold `bb` after it. -/
theorem C14_no_self_eviction_defect :
    Inv cache_abc ∧ "bb" ∈ cache_abc.entries.map Prod.fst ∧
      "bb".length + "123456".length ≤ cache_abc._max_size ∧
      (Put cache_abc "bb" "123456").map (fun r => r.1.value_of "bb") = none ∧
      (Set cache_abc "bb" "123456").map (fun r => r.1.value_of "bb") = none :=
  ⟨cache_abc_Inv, by decide, by decide, by decide, by decide⟩

/-- C15: the update path equals its reference.  On the cache a/1, bb/22, c/3 of capacity 10
the reference for the update of `bb` to `123456` gives the chain c/3, bb/123456 (the entry
`a` is evicted); `Put("bb","123456")` and `Set("bb","123456")` have no defined result, so the
code yields no chain to compare with it. -/
theorem C15_update_path_reference_defect :
    Inv cache_abc ∧ cache_abc.value_of "bb" = some "22" ∧
      "bb".length + "123456".length ≤ cache_abc._max_size ∧
      update_reference cache_abc._max_size cache_abc.entries "bb" "22" "123456" =
        [("c", "3"), ("bb", "123456")] ∧
      (Put cache_abc "bb" "123456").map (fun r => r.1.entries) = none ∧
      (Set cache_abc "bb" "123456").map (fun r => r.1.entries) = none :=
  ⟨cache_abc_Inv, by decide, by decide, by decide, by decide, by decide⟩

/-- C16: Get changes only the recency order.  In a state satisfying the invariants, for a
key `k` that is in the cache, `Get(k)` returns `true` and leaves a state in which every key has
the value it had, the index, `_cur_size` and `_max_size` are as they were, the entries are the
same ones (none is evicted) and the entries other than `k` are in the order they were in.
When `k` was already the last entry, the state is the one `Get` found. -/
theorem C16_get_frame (s : SimpleLRU) (k out : String) (hinv : Inv s)
    (hk : k ∈ s.entries.map Prod.fst) :
    ∃ s1 val, Get s k out = some (s1, val, true) ∧
      (∀ k', s1.value_of k' = s.value_of k') ∧
      s1._lru_index = s._lru_index ∧ s1._cur_size = s._cur_size ∧
      s1._max_size = s._max_size ∧ s1.entries.Perm s.entries ∧
      s1.entries.filter (fun e => e.1 != k) = s.entries.filter (fun e => e.1 != k) ∧
      (s.entries.getLast?.map Prod.fst = some k → s1 = s) := by
  obtain ⟨xs, h⟩ := hinv
  obtain ⟨l, x, r, rfl, rfl⟩ := h.split hk
  obtain ⟨s1, he, hr, hi, hc, hm, hsame⟩ := h.get_present_frame out
  have hperm : s1.entries.Perm s.entries := by
    rw [hr.entries_eq, h.entries_eq]
    apply List.Perm.map
    rw [List.append_assoc]
    exact List.Perm.append_left l (List.perm_append_singleton x r)
  refine ⟨s1, x.2.2, he, ?_, hi, hc, hm, hperm, ?_, fun hlast => hsame (h.last_key hlast)⟩
  · intro k'
    exact Rep.value_of_congr h hr k' (fun v => hperm.mem_iff)
  · rw [hr.entries_eq, h.entries_eq]
    simp [List.filter_append, List.filter_cons]

/-- An instance of C16: `Get("a")` on the cache holding a/1, bb/22, c/3, with the order it
leaves, and `Get("c")`, which finds `c` last. -/
theorem C16_get_frame_witness :
    (Inv cache_abc ∧ "a" ∈ cache_abc.entries.map Prod.fst) ∧
      (∃ s1 val, Get cache_abc "a" "" = some (s1, val, true) ∧
        (∀ k', s1.value_of k' = cache_abc.value_of k') ∧
        s1._lru_index = cache_abc._lru_index ∧ s1._cur_size = cache_abc._cur_size ∧
        s1._max_size = cache_abc._max_size ∧ s1.entries.Perm cache_abc.entries ∧
        s1.entries.filter (fun e => e.1 != "a") =
          cache_abc.entries.filter (fun e => e.1 != "a") ∧
        (cache_abc.entries.getLast?.map Prod.fst = some "a" → s1 = cache_abc)) ∧
      (Get cache_abc "a" "").map (fun r => r.1.entries) =
        some [("bb", "22"), ("c", "3"), ("a", "1")] ∧
      Get cache_abc "c" "" = some (cache_abc, "3", true) :=
  ⟨⟨cache_abc_Inv, by decide⟩, C16_get_frame cache_abc "a" "" cache_abc_Inv (by decide),
    by decide, by decide⟩

/-- C17: the eviction loop terminates.  The property promises that the loop of the insert
path and of the update path ends after at most as many iterations as there are entries.  On
the cache a/1, bb/22 of capacity 10 the loop of `InsertNewNode("ccc","333")` finds its
condition true and the head present, and its first iteration has no defined result, so the
loop has none; the same holds of the loop of `ChangeNode` for the update of `bb` to `123456`
on the cache a/1, bb/22, c/3, entered after `bb` (node 1) has moved to the tail. -/
theorem C17_eviction_loop_terminates_defect :
    (Inv cache_ab ∧ "ccc".length + "333".length ≤ cache_ab._max_size) ∧
      InsertNewNode_cond "ccc" "333" cache_ab = some true ∧
      cache_ab._lru_head = some 0 ∧
      evict_body cache_ab = none ∧
      evict_while (InsertNewNode_cond "ccc" "333") cache_ab.arena.length cache_ab = none ∧
      InsertNewNode cache_ab "ccc" "333" = none ∧
      (Inv cache_abc ∧ "bb".length + "123456".length ≤ cache_abc._max_size) ∧
      (MoveNodeToTail cache_abc 1).bind (ChangeNode_cond 1 "123456") = some true ∧
      (MoveNodeToTail cache_abc 1).bind evict_body = none ∧
      (MoveNodeToTail cache_abc 1).bind
        (fun t => evict_while (ChangeNode_cond 1 "123456") t.arena.length t) = none ∧
      ChangeNode cache_abc 1 "123456" = none :=
  ⟨⟨cache_ab_Inv, by decide⟩, by decide, by decide, by decide, by decide, by decide,
    ⟨cache_abc_Inv, by decide⟩, by decide, by decide, by decide, by decide⟩

/-- C18: the chain is a well-formed doubly linked list.  The property promises the
well-formedness after every operation of every sequence from the empty cache.  With capacity
10, the calls `Put("a","1")`, `Put("bb","22")`, `Put("c","3")`, `Get("a")` return; the fifth
call `Delete("c")` has no defined result, and so has the sequence continued by
`Put("d","4")`: neither head nor tail nor links are determined after them. -/
theorem C18_doubly_linked_defect :
    (run (SimpleLRU.empty 10) [.put "a" "1", .put "bb" "22", .put "c" "3", .get "a"]).map
        (fun c => c.entries) = some [("bb", "22"), ("c", "3"), ("a", "1")] ∧
      run (SimpleLRU.empty 10)
        [.put "a" "1", .put "bb" "22", .put "c" "3", .get "a", .delete "c"] = none ∧
      run (SimpleLRU.empty 10)
        [.put "a" "1", .put "bb" "22", .put "c" "3", .get "a", .delete "c", .put "d" "4"] =
        none := by
  decide

/-- C19: other keys are never modified.  The property promises, for every operation on a
key `k`, what holds of every other key after the operation.  On the cache a/1, bb/22, c/3 of
capacity 10 the operations `Put("dd","dd")`, `PutIfAbsent("dd","dd")`, `Set("bb","123456")`
and `Delete("bb")` have no defined result, so the value of the other key `c` after them is
not determined. -/
theorem C19_other_keys_unmodified_defect :
    Inv cache_abc ∧ cache_abc.value_of "c" = some "3" ∧
      (step cache_abc (.put "dd" "dd")).map (fun r => r.1.value_of "c") = none ∧
      (step cache_abc (.putIfAbsent "dd" "dd")).map (fun r => r.1.value_of "c") = none ∧
      (step cache_abc (.set "bb" "123456")).map (fun r => r.1.value_of "c") = none ∧
      (step cache_abc (.delete "bb")).map (fun r => r.1.value_of "c") = none :=
  ⟨cache_abc_Inv, by decide, by decide, by decide, by decide, by decide⟩

/-- C20: no wrap-around in the size accounting.  The property promises that the subtraction
`_cur_size -= tmp.key.size() + tmp.value.size()` of `DeleteNode` never underflows.  In the
call `DeleteNode` makes for the head `a` (node 0), for `bb` (node 1) and for the tail `c`
(node 2) of the cache a/1, bb/22, c/3, after the key has been erased from the index as
`Delete` and the eviction loop do, the subtrahend is read from the destroyed node: the call
has no defined result, and nothing bounds the subtrahend by `_cur_size`. -/
theorem C20_no_wrap_around_defect :
    Inv cache_abc ∧
      DeleteNode { cache_abc with _lru_index := index_erase cache_abc._lru_index "a" } 0 =
        none ∧
      DeleteNode { cache_abc with _lru_index := index_erase cache_abc._lru_index "bb" } 1 =
        none ∧
      DeleteNode { cache_abc with _lru_index := index_erase cache_abc._lru_index "c" } 2 =
        none :=
  ⟨cache_abc_Inv, by decide, by decide, by decide⟩

end Afina.Backend
